import Mathlib

set_option maxRecDepth 8192

/-!
Verification of the nonagon-l2 node core against its specification.

This file shallowly embeds the C++ source of the repository:
  src/nonagon-node/src/core/types.cpp          (Address, Transaction, AccountState)
  src/nonagon-node/src/consensus/consensus.cpp (ConsensusEngine, Mempool)
  src/nonagon-node/src/execution/execution.cpp (EVM, TransactionProcessor)
  src/unnamed/part_003                         (StateTrie, StateManager)

Conventions of the embedding:
  - Bytes are lists of natural numbers; every C++ byte is a value below 256
    by construction of the operations that produce it.
  - Machine integers (uint64_t, size_t) are naturals reduced modulo 2^64 at
    exactly the operations where the C++ can wrap.
  - The cryptographic hash (Blake2b256 in the source) is a consumed external
    primitive per section 6 of the specification; it is a parameter
    (H : Bytes -> Bytes) of every definition that hashes.  Likewise the raw
    signature primitive is a parameter edVerify.
  - std::map is an association list with replace-in-place insertion; where
    the C++ iterates an std::map in key order the embedding keeps the list
    sorted by key.  std::unordered_map is an association list in insertion
    order; its C++ iteration order is unspecified, the embedding fixes it
    to insertion order (noted at each use).
  - The C++ journal uses push_back and pops from the back; the embedding
    keeps the journal with the most recent entry at the head of the list.
-/

namespace Nonagon

/-- Raw byte strings: the C++ type Bytes = std::vector of uint8_t. -/
abbrev Bytes := List Nat

/-- The modulus of a 64-bit machine word. -/
def M64 : Nat := 18446744073709551616

/-- The all-zero 32-byte digest, the value of a default-initialized Hash256. -/
def zeroHash : Bytes := List.replicate 32 0

/-- Big-endian bytes of a uint64, the append_uint64 helper of types.cpp:
each byte is (v >> (i*8)) & 0xFF for i = 7 down to 0. -/
def be8 (v : Nat) : Bytes :=
  [v / 2 ^ 56 % 256, v / 2 ^ 48 % 256, v / 2 ^ 40 % 256, v / 2 ^ 32 % 256,
   v / 2 ^ 24 % 256, v / 2 ^ 16 % 256, v / 2 ^ 8 % 256, v % 256]

/-- Big-endian value of a byte list, the read_uint64 helper folding
v = (v << 8) | b over the bytes. -/
def beVal (bs : Bytes) : Nat :=
  bs.foldl (fun a b => a * 256 + b) 0

/-- Association-list lookup, the semantics of map::find. -/
def assocFind {α β : Type} [DecidableEq α] : List (α × β) → α → Option β
  | [], _ => none
  | (k, v) :: rest, key => if k = key then some v else assocFind rest key

/-- Association-list insert-or-assign, the semantics of map::operator[]
followed by assignment: replace in place when the key exists, else append. -/
def assocPut {α β : Type} [DecidableEq α] : List (α × β) → α → β → List (α × β)
  | [], key, val => [(key, val)]
  | (k, v) :: rest, key, val =>
      if k = key then (key, val) :: rest else (k, v) :: assocPut rest key val

/-- Association-list erase, the semantics of map::erase by key. -/
def assocErase {α β : Type} [DecidableEq α] : List (α × β) → α → List (α × β)
  | [], _ => []
  | (k, v) :: rest, key =>
      if k = key then rest else (k, v) :: assocErase rest key

/-! ## Addresses (types.hpp / types.cpp) -/

/-- A Nonagon address: a type tag, a 28-byte payment credential, an optional
28-byte stake credential and a network flag (types.hpp struct Address). -/
structure Address where
  type : Nat := 1
  payment_credential : Bytes := List.replicate 28 0
  stake_credential : Option Bytes := none
  is_mainnet : Bool := true
deriving DecidableEq

/-- The character code of one lowercase hexadecimal digit as produced by the
std::hex stream formatting in Address::to_hex. -/
def hexDigit (n : Nat) : Nat :=
  if n < 10 then 48 + n else 87 + n

/-- The two hex-character codes of one byte. -/
def byteHex (b : Nat) : Bytes :=
  [hexDigit (b / 16 % 16), hexDigit (b % 16)]

/-- Address::to_hex from types.cpp: the type byte, the payment credential and
the optional stake credential, each as two lowercase hex characters. -/
def Address.to_hex (a : Address) : Bytes :=
  byteHex a.type ++ (a.payment_credential.flatMap byteHex) ++
    (match a.stake_credential with
     | some sc => sc.flatMap byteHex
     | none => [])

/-! ## Account state (types.cpp) -/

/-- AccountState from types.hpp: nonce, balance and the two digests. -/
structure AccountState where
  nonce : Nat := 0
  balance : Nat := 0
  storage_root : Bytes := zeroHash
  code_hash : Bytes := zeroHash
deriving DecidableEq

/-- AccountState::encode: nonce and balance big-endian, then the two digests
(80 bytes for well-formed states). -/
def AccountState.encode (st : AccountState) : Bytes :=
  be8 st.nonce ++ be8 st.balance ++ st.storage_root ++ st.code_hash

/-- AccountState::decode: a default state when fewer than 80 bytes, else the
two integers and the two 32-byte digests read in order. -/
def AccountState.decode (bs : Bytes) : AccountState :=
  if bs.length < 80 then {} else
  { nonce := beVal (bs.take 8)
    balance := beVal ((bs.drop 8).take 8)
    storage_root := (bs.drop 16).take 32
    code_hash := (bs.drop 48).take 32 }

/-! ## Transactions (types.cpp) -/

/-- Transaction from types.hpp.  The C++ field names of the endpoints are
from and to, both Lean keywords, embedded here as from_ and to_. -/
structure Transaction where
  from_ : Address := {}
  to_ : Address := {}
  value : Nat := 0
  nonce : Nat := 0
  data : Bytes := []
  gas_limit : Nat := 21000
  max_fee_per_gas : Nat := 0
  max_priority_fee_per_gas : Nat := 0
  sender_pubkey : Bytes := List.replicate 32 0
  signature : Bytes := List.replicate 64 0
deriving DecidableEq

/-- The preimage hashed by Transaction::hash: hex strings of both addresses,
the five integer fields big-endian, the call data and the sender public key.
The signature is excluded. -/
def Transaction.hashBytes (tx : Transaction) : Bytes :=
  tx.from_.to_hex ++ tx.to_.to_hex ++ be8 tx.value ++ be8 tx.nonce ++
    be8 tx.gas_limit ++ be8 tx.max_fee_per_gas ++
    be8 tx.max_priority_fee_per_gas ++ tx.data ++ tx.sender_pubkey

/-- Transaction::hash: the digest of the signature-free serialization. -/
def Transaction.hash (H : Bytes → Bytes) (tx : Transaction) : Bytes :=
  H tx.hashBytes

/-- Transaction::effective_gas_price: base_fee + priority capped at max_fee.
The uint64 sum base_fee + priority_fee can wrap and is reduced modulo 2^64
exactly as the machine does. -/
def Transaction.effective_gas_price (tx : Transaction) (base_fee : Nat) : Nat :=
  let s := (base_fee + tx.max_priority_fee_per_gas) % M64
  if tx.max_fee_per_gas < s then tx.max_fee_per_gas else s

/-- Transaction::verify_signature from types.cpp: the dev bypass accepts a
signature made entirely of 0xFF bytes; any other signature is checked by the
raw signature primitive against the transaction hash and the included public
key.  The primitive (Ed25519::verify in the source) is the consumed external
parameter edVerify. -/
def Transaction.verify_signature (H : Bytes → Bytes)
    (edVerify : Bytes → Bytes → Bytes → Bool) (tx : Transaction) : Bool :=
  if tx.signature.all (fun b => b = 255) then true
  else edVerify (tx.hash H) tx.signature tx.sender_pubkey

/-! ## Merkle root (crypto part of the repository, Blake2b256::merkle_root) -/

/-- Blake2b256::combine_hashes: the digest of the two digests concatenated. -/
def combine_hashes (H : Bytes → Bytes) (l r : Bytes) : Bytes :=
  H (l ++ r)

/-- One pass of the merkle loop: combine adjacent pairs.  The source only
runs this on even-length levels. -/
def merklePass (H : Bytes → Bytes) : List Bytes → List Bytes
  | a :: b :: rest => combine_hashes H a b :: merklePass H rest
  | _ => []

/-- Duplicate the last element of an odd-length level, the padding the source
applies before pairing whenever more than one node remains. -/
def padOdd (l : List Bytes) : List Bytes :=
  if l.length % 2 = 1 then l ++ [l.getLast!] else l

theorem merklePass_length (H : Bytes → Bytes) :
    ∀ l, (merklePass H l).length = l.length / 2
  | [] => by simp [merklePass]
  | [_] => by simp [merklePass]
  | _ :: _ :: rest => by
      simp [merklePass, merklePass_length H rest]
      omega

theorem padOdd_length_le (l : List Bytes) : (padOdd l).length ≤ l.length + 1 := by
  unfold padOdd
  split <;> simp

/-- The merkle reduction loop of Blake2b256::merkle_root, entered on a padded
even-length level of at least two nodes.  The fuel argument only bounds the
pass count; each pass at least halves the level, so a fuel of the initial
length is never exhausted. -/
def merkleLoop (H : Bytes → Bytes) : Nat → List Bytes → Bytes
  | 0, cur => cur.headD zeroHash
  | fuel + 1, cur =>
    if cur.length ≤ 1 then cur.headD zeroHash
    else
      let nxt := merklePass H cur
      merkleLoop H fuel (if 1 < nxt.length then padOdd nxt else nxt)

/-- Blake2b256::merkle_root: the zero digest for no leaves, the single leaf
itself, else the pairing loop over the (padded) leaf level. -/
def merkle_root (H : Bytes → Bytes) (leaves : List Bytes) : Bytes :=
  match leaves with
  | [] => zeroHash
  | [x] => x
  | _ => merkleLoop H leaves.length (padOdd leaves)

/-! ## State trie (part_003, StateTrie) -/

/-- StateTrie from storage.hpp: the pending writes (dirty_nodes_, keyed by
the digest of the key), the shared key-value database and the current root.
The database is a member of the trie here because the C++ StateManager and
its trie share one database object.  dirty_nodes_ is an std::unordered_map;
the embedding fixes its iteration order to insertion order. -/
structure StateTrie where
  dirty : List (Bytes × Bytes) := []
  db : List (Bytes × Bytes) := []
  root : Bytes := zeroHash
deriving DecidableEq

/-- The database key of a trie entry: the 0x01 state prefix then the digest. -/
def trieDbKey (key_str : Bytes) : Bytes := 1 :: key_str

/-- The database key under which commit stores the root. -/
def rootKey : Bytes := [0, 82, 79, 79, 84]

/-- StateTrie::get: hash the key, consult the dirty map first, then the
database under the state prefix. -/
def StateTrie.get (H : Bytes → Bytes) (t : StateTrie) (key : Bytes) : Option Bytes :=
  let key_str := H key
  match assocFind t.dirty key_str with
  | some v => some v
  | none => assocFind t.db (trieDbKey key_str)

/-- StateTrie::put: record the value in the dirty map under the hashed key. -/
def StateTrie.put (H : Bytes → Bytes) (t : StateTrie) (key value : Bytes) : StateTrie :=
  { t with dirty := assocPut t.dirty (H key) value }

/-- StateTrie::del: record an empty value (the deletion marker) in the dirty
map under the hashed key. -/
def StateTrie.del (H : Bytes → Bytes) (t : StateTrie) (key : Bytes) : StateTrie :=
  { t with dirty := assocPut t.dirty (H key) [] }

/-- Apply a write batch the way Database::write_batch does: all puts in
order, then all deletes in order. -/
def applyBatch (db : List (Bytes × Bytes)) (puts : List (Bytes × Bytes))
    (dels : List Bytes) : List (Bytes × Bytes) :=
  dels.foldl assocErase (puts.foldl (fun d kv => assocPut d kv.1 kv.2) db)

/-- StateTrie::commit: walk the dirty map once, turning empty values into
batch deletes and the rest into batch puts and leaf hashes, write the batch,
clear the dirty map, recompute the root as the merkle root of the leaf
hashes of the written entries only (the root is left unchanged when nothing
non-empty was dirty), and store the root under its reserved key. -/
def StateTrie.commit (H : Bytes → Bytes) (t : StateTrie) : Bytes × StateTrie :=
  let kept := t.dirty.filter (fun kv => !kv.2.isEmpty)
  let puts := kept.map (fun kv => (trieDbKey kv.1, kv.2))
  let dels := (t.dirty.filter (fun kv => kv.2.isEmpty)).map (fun kv => trieDbKey kv.1)
  let leaf_hashes := kept.map (fun kv => H (kv.1 ++ kv.2))
  let db1 := applyBatch t.db puts dels
  let root1 := if leaf_hashes.isEmpty then t.root else merkle_root H leaf_hashes
  let db2 := assocPut db1 rootKey root1
  (root1, { dirty := [], db := db2, root := root1 })

/-! ## State manager (part_003, StateManager) -/

/-- A journal record of StateManager: the address and the account state it
held before the write (absent when the trie had no entry). -/
structure JournalEntry where
  addr : Address
  prev_state : Option AccountState
deriving DecidableEq

/-- StateManager from storage.hpp: the account trie (which carries the
shared database) and the undo journal.  The journal is push_back/pop_back in
the source; the embedding keeps the newest entry at the head. -/
structure StateManager where
  trie : StateTrie := {}
  journal : List JournalEntry := []
deriving DecidableEq

/-- StateManager::Snapshot: the trie root and the journal length. -/
structure Snapshot where
  state_root : Bytes
  journal_size : Nat
deriving DecidableEq

/-- The database key of a contract storage slot: the STOR prefix, the
28-byte account payload and the 32-byte slot key. -/
def storKey (a : Address) (slot : Bytes) : Bytes :=
  [83, 84, 79, 82] ++ a.payment_credential ++ slot

/-- The database key of a code blob: the CODE prefix and the code digest. -/
def codeKey (h : Bytes) : Bytes :=
  [67, 79, 68, 69] ++ h

/-- StateManager::get_account: decode the trie entry of the payment
credential, a default state when absent. -/
def StateManager.get_account (H : Bytes → Bytes) (s : StateManager)
    (a : Address) : AccountState :=
  match StateTrie.get H s.trie a.payment_credential with
  | some data => AccountState.decode data
  | none => {}

/-- StateManager::set_account: journal the previous trie entry (decoded), then
write the encoded state to the trie. -/
def StateManager.set_account (H : Bytes → Bytes) (a : Address)
    (st : AccountState) (s : StateManager) : StateManager :=
  let prev := (StateTrie.get H s.trie a.payment_credential).map AccountState.decode
  { trie := StateTrie.put H s.trie a.payment_credential st.encode
    journal := { addr := a, prev_state := prev } :: s.journal }

/-- StateManager::get_balance. -/
def StateManager.get_balance (H : Bytes → Bytes) (s : StateManager) (a : Address) : Nat :=
  (s.get_account H a).balance

/-- StateManager::get_nonce. -/
def StateManager.get_nonce (H : Bytes → Bytes) (s : StateManager) (a : Address) : Nat :=
  (s.get_account H a).nonce

/-- StateManager::add_balance: read, add with uint64 wrap, write back. -/
def StateManager.add_balance (H : Bytes → Bytes) (a : Address) (amount : Nat)
    (s : StateManager) : StateManager :=
  let st := s.get_account H a
  s.set_account H a { st with balance := (st.balance + amount) % M64 }

/-- StateManager::sub_balance: subtract only when the balance suffices,
silently leaving the state untouched otherwise (the source returns void and
has no failure path). -/
def StateManager.sub_balance (H : Bytes → Bytes) (a : Address) (amount : Nat)
    (s : StateManager) : StateManager :=
  let st := s.get_account H a
  if amount ≤ st.balance then
    s.set_account H a { st with balance := st.balance - amount }
  else s

/-- StateManager::increment_nonce: read, increment with uint64 wrap, write. -/
def StateManager.increment_nonce (H : Bytes → Bytes) (a : Address)
    (s : StateManager) : StateManager :=
  let st := s.get_account H a
  s.set_account H a { st with nonce := (st.nonce + 1) % M64 }

/-- StateManager::get_storage: a direct database read under the STOR key,
empty bytes when absent. -/
def StateManager.get_storage (s : StateManager) (a : Address)
    (slot : Bytes) : Bytes :=
  (assocFind s.trie.db (storKey a slot)).getD []

/-- StateManager::set_storage: a direct database write under the STOR key.
The write is not journaled and the key is not hashed. -/
def StateManager.set_storage (a : Address) (slot value : Bytes)
    (s : StateManager) : StateManager :=
  { s with trie := { s.trie with db := assocPut s.trie.db (storKey a slot) value } }

/-- StateManager::get_code: the database blob under the CODE key of the
account's code hash, empty bytes when absent. -/
def StateManager.get_code (H : Bytes → Bytes) (s : StateManager) (a : Address) : Bytes :=
  let st := s.get_account H a
  (assocFind s.trie.db (codeKey st.code_hash)).getD []

/-- StateManager::set_code: store the blob under the CODE key of its digest,
then point the account's code hash at it (the account write is journaled,
the blob write is not). -/
def StateManager.set_code (H : Bytes → Bytes) (a : Address) (code : Bytes)
    (s : StateManager) : StateManager :=
  let h := H code
  let s1 : StateManager :=
    { s with trie := { s.trie with db := assocPut s.trie.db (codeKey h) code } }
  let st := s1.get_account H a
  s1.set_account H a { st with code_hash := h }

/-- StateManager::commit: commit the trie; the journal is left as is. -/
def StateManager.commit (H : Bytes → Bytes) (s : StateManager) : Bytes × StateManager :=
  let (r, t) := s.trie.commit H
  (r, { s with trie := t })

/-- StateManager::snapshot: capture the trie root and the journal length. -/
def StateManager.snapshot (s : StateManager) : Snapshot :=
  { state_root := s.trie.root, journal_size := s.journal.length }

/-- Undo one journal entry: rewrite the previous account state, or delete the
trie entry when there was none. -/
def undoEntry (H : Bytes → Bytes) (e : JournalEntry) (t : StateTrie) : StateTrie :=
  match e.prev_state with
  | some p => t.put H e.addr.payment_credential p.encode
  | none => t.del H e.addr.payment_credential

/-- The pop loop of StateManager::revert: undo journal entries while the
journal is longer than the snapshot recorded. -/
def revertAux (H : Bytes → Bytes) (n : Nat) :
    List JournalEntry → StateTrie → StateTrie × List JournalEntry
  | [], t => (t, [])
  | e :: rest, t =>
      if rest.length + 1 ≤ n then (t, e :: rest)
      else revertAux H n rest (undoEntry H e t)

/-- StateManager::revert: pop and undo journal entries down to the journal
length the snapshot recorded.  Only the journal length of the snapshot is
consulted, as in the source. -/
def StateManager.revert (H : Bytes → Bytes) (snap : Snapshot)
    (s : StateManager) : StateManager :=
  let (t, j) := revertAux H snap.journal_size s.journal s.trie
  { trie := t, journal := j }

/-! ## Mempool (consensus.hpp / consensus.cpp) -/

/-- Mempool::AddResult, all nine enumerators of consensus.hpp. -/
inductive AddResult
  | Added
  | Replaced
  | AlreadyKnown
  | Underpriced
  | NonceTooLow
  | NonceTooHigh
  | InsufficientFunds
  | PoolFull
  | Invalid
deriving DecidableEq

/-- Mempool::SenderTxs: the per-sender nonce map (an std::map, kept sorted
ascending by nonce here) and the next expected nonce, value-initialized to
zero by map::operator[]. -/
structure SenderTxs where
  by_nonce : List (Nat × Transaction) := []
  pending_nonce : Nat := 0
deriving DecidableEq

/-- The Mempool state: capacity, the per-sender map keyed by the hex string
of the sender address, the global hash map keyed by the digest bytes, and
the priority queue modeled as the list of its entries.  Both hash maps are
std::unordered_map; the embedding fixes their iteration order to insertion
order. -/
structure Mempool where
  max_size : Nat := 10000
  by_sender : List (Bytes × SenderTxs) := []
  by_hash : List (Bytes × Transaction) := []
  priority_queue : List (Bytes × Nat) := []
deriving DecidableEq

/-- Sorted insertion into the per-sender nonce map, the semantics of
std::map::operator[] assignment on a map iterated in key order. -/
def nonceInsert : List (Nat × Transaction) → Nat → Transaction → List (Nat × Transaction)
  | [], n, tx => [(n, tx)]
  | (k, v) :: rest, n, tx =>
      if n < k then (n, tx) :: (k, v) :: rest
      else if k = n then (n, tx) :: rest
      else (k, v) :: nonceInsert rest n tx

/-- The pending-nonce advance loop of add_transaction: step the pending nonce
while the map holds it.  The loop hits pairwise distinct keys, so the map
size bounds its iterations; the fuel is called with that bound. -/
def advancePending (m : List (Nat × Transaction)) : Nat → Nat → Nat
  | 0, p => p
  | fuel + 1, p =>
      if (assocFind m p).isSome then advancePending m fuel (p + 1) else p

/-- Mempool::add_transaction from consensus.cpp: duplicate-hash, balance and
capacity checks in order, then the replace-by-fee decision at an occupied
(sender, nonce) slot, else plain admission with pending-nonce tracking and a
priority-queue push.  The balance requirement wraps exactly as the uint64
expression value + gas_limit * max_fee does; the replacement threshold is
old max_fee * 110 / 100 in uint64 arithmetic, and the new transaction is
underpriced unless strictly above it. -/
def Mempool.add_transaction (H : Bytes → Bytes) (pool : Mempool)
    (tx : Transaction) (sender_balance : Nat) : AddResult × Mempool :=
  let hash_str := tx.hash H
  if (assocFind pool.by_hash hash_str).isSome then (.AlreadyKnown, pool)
  else
    let required := (tx.value + tx.gas_limit * tx.max_fee_per_gas % M64) % M64
    if sender_balance < required then (.InsufficientFunds, pool)
    else if pool.max_size ≤ pool.by_hash.length then (.PoolFull, pool)
    else
      let sender_key := tx.from_.to_hex
      let sender_txs := (assocFind pool.by_sender sender_key).getD {}
      match assocFind sender_txs.by_nonce tx.nonce with
      | some old =>
          if tx.max_fee_per_gas ≤ old.max_fee_per_gas * 110 % M64 / 100 then
            (.Underpriced,
             { pool with by_sender := assocPut pool.by_sender sender_key sender_txs })
          else
            let old_hash := old.hash H
            let sender_txs1 : SenderTxs :=
              { sender_txs with by_nonce := nonceInsert sender_txs.by_nonce tx.nonce tx }
            (.Replaced,
             { pool with
                 by_sender := assocPut pool.by_sender sender_key sender_txs1
                 by_hash := assocPut (assocErase pool.by_hash old_hash) hash_str tx })
      | none =>
          let by_nonce1 := nonceInsert sender_txs.by_nonce tx.nonce tx
          let pending1 :=
            match by_nonce1 with
            | [] => sender_txs.pending_nonce
            | (k, _) :: _ =>
                if k = sender_txs.pending_nonce then
                  advancePending by_nonce1 (by_nonce1.length + 1) sender_txs.pending_nonce
                else sender_txs.pending_nonce
          (.Added,
           { pool with
               by_sender := assocPut pool.by_sender sender_key
                 { by_nonce := by_nonce1, pending_nonce := pending1 }
               by_hash := assocPut pool.by_hash hash_str tx
               priority_queue := pool.priority_queue ++ [(hash_str, tx.max_fee_per_gas)] })

/-- Mempool::get_transaction: the global hash map lookup. -/
def Mempool.get_transaction (pool : Mempool) (hash : Bytes) : Option Transaction :=
  assocFind pool.by_hash hash

/-- Mempool::get_pending_for: the sender's transactions in nonce order. -/
def Mempool.get_pending_for (pool : Mempool) (addr : Address) : List Transaction :=
  match assocFind pool.by_sender addr.to_hex with
  | none => []
  | some stxs => stxs.by_nonce.map (·.2)

/-- Mempool::rebuild_priority_queue: one entry per pooled transaction priced
at the current base fee, pushed in hash-map iteration order. -/
def Mempool.rebuild_priority_queue (pool : Mempool) (base_fee : Nat) : List (Bytes × Nat) :=
  pool.by_hash.map (fun kv => (kv.1, kv.2.effective_gas_price base_fee))

/-- Extract the maximum-price entry of the queue, the first one in list order
among equals, together with the remaining entries: the pop of the max-heap. -/
def popMax : List (Bytes × Nat) → Option ((Bytes × Nat) × List (Bytes × Nat))
  | [] => none
  | e :: rest =>
      match popMax rest with
      | none => some (e, [])
      | some (m, rest1) => if e.2 < m.2 then some (m, e :: rest1) else some (e, rest)

/-- The selection loop of get_block_transactions: pop by price while gas
remains, skipping entries that vanished from the pool or were already taken,
transactions that overflow the remaining block gas, and transactions priced
below the base fee.  Each iteration pops one queue entry, so the queue
length bounds the iterations; the fuel is called with that bound. -/
def selectLoop (by_hash : List (Bytes × Transaction)) (gas_limit base_fee : Nat) :
    Nat → List (Bytes × Nat) → Nat → List Bytes → List Transaction → List Transaction
  | 0, _, _, _, acc => acc.reverse
  | fuel + 1, pq, gas_used, selected, acc =>
      if gas_limit ≤ gas_used then acc.reverse
      else
        match popMax pq with
        | none => acc.reverse
        | some (top, pq1) =>
            match assocFind by_hash top.1 with
            | none => selectLoop by_hash gas_limit base_fee fuel pq1 gas_used selected acc
            | some tx =>
                if top.1 ∈ selected then
                  selectLoop by_hash gas_limit base_fee fuel pq1 gas_used selected acc
                else if gas_limit < (gas_used + tx.gas_limit) % M64 then
                  selectLoop by_hash gas_limit base_fee fuel pq1 gas_used selected acc
                else if tx.effective_gas_price base_fee < base_fee then
                  selectLoop by_hash gas_limit base_fee fuel pq1 gas_used selected acc
                else
                  selectLoop by_hash gas_limit base_fee fuel pq1
                    ((gas_used + tx.gas_limit) % M64) (top.1 :: selected) (tx :: acc)

/-- Mempool::get_block_transactions: rebuild the priority queue at the given
base fee, then run the selection loop.  The popped queue is rebuilt from
scratch on every call and read nowhere else, so only the selected list is
returned. -/
def Mempool.get_block_transactions (pool : Mempool) (gas_limit base_fee : Nat) :
    List Transaction :=
  let pq := pool.rebuild_priority_queue base_fee
  selectLoop pool.by_hash gas_limit base_fee pq.length pq 0 [] []

/-! ## Consensus engine (consensus.hpp / consensus.cpp) -/

/-- SequencerStatus from consensus.hpp. -/
inductive SequencerStatus
  | Active
  | Standby
  | Slashed
  | Exiting
deriving DecidableEq

/-- Sequencer from consensus.hpp.  The floating-point uptime percentage is
read by none of the embedded operations and is omitted. -/
structure Sequencer where
  address : Address
  public_key : Bytes := List.replicate 32 0
  stake : Nat := 0
  last_block_produced : Nat := 0
  status : SequencerStatus := .Standby
  blocks_produced : Nat := 0
  missed_slots : Nat := 0
deriving DecidableEq

/-- ConsensusConfig from consensus.hpp, restricted to the integer fields the
embedded operations read (the floating-point slash percentages are read by
none of them). -/
structure ConsensusConfig where
  block_time_ms : Nat := 1000
  blocks_per_epoch : Nat := 86400
  max_sequencers : Nat := 21
  min_stake : Nat := 100000
  unbonding_period : Nat := 604800
deriving DecidableEq

/-- Stable descending insertion by stake: an element is placed after every
element of at least its stake, so ties keep their existing order. -/
def insertByStake (x : Sequencer) : List Sequencer → List Sequencer
  | [] => [x]
  | y :: ys => if x.stake ≤ y.stake then y :: insertByStake x ys else x :: y :: ys

/-- Sort descending by stake.  The source calls std::sort, whose order among
equal stakes is unspecified; the embedding fixes ties to input order (a
stable sort).  No address comparison takes place anywhere in the source. -/
def sortByStakeDesc (l : List Sequencer) : List Sequencer :=
  l.foldl (fun acc x => insertByStake x acc) []

/-- ConsensusEngine::update_active_set: keep Active and Standby sequencers
meeting the minimum stake, sort descending by stake, take the configured
maximum, and mark the survivors Active. -/
def ConsensusEngine.update_active_set (cfg : ConsensusConfig)
    (sequencers : List Sequencer) : List Sequencer :=
  let eligible := sequencers.filter (fun s =>
    decide ((s.status = SequencerStatus.Active ∨ s.status = SequencerStatus.Standby) ∧
      cfg.min_stake ≤ s.stake))
  ((sortByStakeDesc eligible).take cfg.max_sequencers).map
    (fun s => { s with status := SequencerStatus.Active })

/-- The ConsensusEngine state: the configuration, the registry and the
cached active set the mutators maintain via update_active_set. -/
structure ConsensusEngine where
  config : ConsensusConfig := {}
  sequencers : List Sequencer := []
  active_set : List Sequencer := []
  chain_head : Nat := 0
deriving DecidableEq

/-- ConsensusEngine::total_active_stake: the stake sum of the active set
accumulated in uint64, with zero replaced by one to avoid division by
zero. -/
def ConsensusEngine.total_active_stake (e : ConsensusEngine) : Nat :=
  let total := (e.active_set.map (·.stake)).sum % M64
  if 0 < total then total else 1

/-- The accumulation walk of get_leader_for_slot: the first sequencer whose
running stake total (a uint64 accumulator) exceeds the slot residue. -/
def leaderWalk (slot_stake : Nat) : List Sequencer → Nat → Option Address
  | [], _ => none
  | seq :: rest, cumulative =>
      if slot_stake < (cumulative + seq.stake) % M64 then some seq.address
      else leaderWalk slot_stake rest ((cumulative + seq.stake) % M64)

/-- ConsensusEngine::get_leader_for_slot: a default address for an empty
active set, else the stake-weighted walk over the slot number reduced
modulo the total active stake, falling back to the first sequencer. -/
def ConsensusEngine.get_leader_for_slot (e : ConsensusEngine) (slot : Nat) : Address :=
  match e.active_set with
  | [] => {}
  | first :: _ =>
      let slot_stake := slot % e.total_active_stake
      match leaderWalk slot_stake e.active_set 0 with
      | some a => a
      | none => first.address

/-! ## Virtual machine (part_008 / execution.cpp) -/

/-- Wrapped uint64 addition. -/
def add64 (a b : Nat) : Nat := (a + b) % M64

/-- Wrapped uint64 subtraction (two's complement). -/
def sub64 (a b : Nat) : Nat := (a % M64 + M64 - b % M64) % M64

/-- Wrapped uint64 multiplication. -/
def mul64 (a b : Nat) : Nat := a * b % M64

/-- Bitwise complement of a uint64. -/
def not64 (a : Nat) : Nat := M64 - 1 - a % M64

/-- The int64 reading of a uint64 bit pattern. -/
def toI64 (x : Nat) : Int := if x < 2 ^ 63 then (x : Int) else (x : Int) - (M64 : Int)

/-- The uint64 bit pattern of an int64 value. -/
def ofI64 (i : Int) : Nat := (i.emod (M64 : Int)).toNat

/-- The EVM word: std::array of four uint64, index 0 most significant.  The
source calls this uint256 though most of its operations only act on the low
word a3. -/
structure Word where
  a0 : Nat := 0
  a1 : Nat := 0
  a2 : Nat := 0
  a3 : Nat := 0
deriving DecidableEq

/-- The 32 big-endian bytes of a word, the layout every key/value/topic
conversion loop of the source produces. -/
def wordToBytes (w : Word) : Bytes :=
  be8 w.a0 ++ be8 w.a1 ++ be8 w.a2 ++ be8 w.a3

/-- Or one byte into a word at big-endian byte position pos (0 is most
significant): word index pos / 8, shift 56 - pos % 8 * 8. -/
def orByteAt (w : Word) (pos b : Nat) : Word :=
  let sh := 56 - pos % 8 * 8
  if pos / 8 = 0 then { w with a0 := w.a0 ||| (b <<< sh) }
  else if pos / 8 = 1 then { w with a1 := w.a1 ||| (b <<< sh) }
  else if pos / 8 = 2 then { w with a2 := w.a2 ||| (b <<< sh) }
  else { w with a3 := w.a3 ||| (b <<< sh) }

/-- Pack up to 32 bytes big-endian from the top of a word, the loop shape of
MLOAD, SLOAD and CALLDATALOAD. -/
def packBE (bs : Bytes) : Word :=
  ((bs.take 32).enum).foldl (fun w ib => orByteAt w ib.1 ib.2) {}

/-- The PUSH immediate packing: byte i of the immediate lands at big-endian
position 31 - i, so the first immediate byte is the least significant (the
source reverses the conventional PUSH byte order). -/
def pushWord (bs : Bytes) : Word :=
  (bs.enum).foldl (fun w ib => orByteAt w (31 - ib.1) ib.2) {}

/-- Little-endian value of up to eight bytes, the memcpy layout ADDRESS
uses when it copies the payload over the word array. -/
def le64 (bs : Bytes) : Nat :=
  (bs.take 8).enum.foldl (fun acc ib => acc + ib.2 * 256 ^ ib.1) 0

/-- The ADDRESS word: the 28 payload bytes copied little-endian over the
four words in memory order. -/
def addressWord (payload : Bytes) : Word :=
  { a0 := le64 (payload.take 8)
    a1 := le64 ((payload.drop 8).take 8)
    a2 := le64 ((payload.drop 16).take 8)
    a3 := le64 ((payload.drop 24).take 8) }

/-- uint256 addition as the source computes it: per-word wrapped sums from
the least significant word up, with the carry taken as (sum < a[i]). -/
def wadd (a b : Word) : Word :=
  let s3 := (a.a3 + b.a3) % M64
  let k3 := if s3 < a.a3 then 1 else 0
  let s2 := (a.a2 + b.a2 + k3) % M64
  let k2 := if s2 < a.a2 then 1 else 0
  let s1 := (a.a1 + b.a1 + k2) % M64
  let k1 := if s1 < a.a1 then 1 else 0
  let s0 := (a.a0 + b.a0 + k1) % M64
  { a0 := s0, a1 := s1, a2 := s2, a3 := s3 }

/-- uint256 subtraction as the source computes it: per-word wrapped
differences with the borrow taken as (a[i] < b[i] + borrow) in uint64. -/
def wsub (a b : Word) : Word :=
  let d3 := (a.a3 + 2 * M64 - b.a3) % M64
  let k3 := if a.a3 < (b.a3 + 0) % M64 then 1 else 0
  let d2 := (a.a2 + 2 * M64 - b.a2 - k3) % M64
  let k2 := if a.a2 < (b.a2 + k3) % M64 then 1 else 0
  let d1 := (a.a1 + 2 * M64 - b.a1 - k2) % M64
  let k1 := if a.a1 < (b.a1 + k2) % M64 then 1 else 0
  let d0 := (a.a0 + 2 * M64 - b.a0 - k1) % M64
  { a0 := d0, a1 := d1, a2 := d2, a3 := d3 }

/-- Lexicographic comparison of the word arrays, the std::array operator<
LT and GT use. -/
def wordLt (x y : Word) : Bool :=
  decide (x.a0 < y.a0 ∨ (x.a0 = y.a0 ∧ (x.a1 < y.a1 ∨ (x.a1 = y.a1 ∧
    (x.a2 < y.a2 ∨ (x.a2 = y.a2 ∧ x.a3 < y.a3))))))

/-- The EXP loop of the source: 64-bit square-and-multiply with wrapping. -/
def expLoop (b e acc : Nat) : Nat :=
  if e = 0 then acc
  else expLoop (b * b % M64) (e / 2) (if e % 2 = 1 then acc * b % M64 else acc)
termination_by e
decreasing_by omega

/-- The opcode gas table, get_opcode_gas_cost from execution.cpp. -/
def get_opcode_gas_cost (op : Nat) : Nat :=
  if op = 0x00 then 0
  else if op = 0x01 ∨ op = 0x02 ∨ op = 0x03 then 3
  else if op = 0x10 ∨ op = 0x11 ∨ op = 0x12 ∨ op = 0x13 then 3
  else if op = 0x14 ∨ op = 0x15 then 3
  else if op = 0x50 then 2
  else if op = 0x51 ∨ op = 0x52 then 3
  else if op = 0x54 then 800
  else if op = 0x55 then 20000
  else if op = 0x56 then 8
  else if op = 0x57 then 10
  else if op = 0x5B then 1
  else if op = 0xF3 ∨ op = 0xFD then 0
  else if op = 0xFE then 0
  else if op = 0xFF then 5000
  else if 0x60 ≤ op ∧ op ≤ 0x7F then 3
  else if 0x80 ≤ op ∧ op ≤ 0x8F then 3
  else if 0x90 ≤ op ∧ op ≤ 0x9F then 3
  else 2

/-- A log record (types.hpp struct Log). -/
structure Log where
  address : Address := {}
  topics : List Bytes := []
  data : Bytes := []
deriving DecidableEq

/-- ExecutionResult from execution.hpp (the state_changes vector exists for
simulation and is written by none of the embedded operations). -/
structure ExecutionResult where
  success : Bool := false
  gas_used : Nat := 0
  return_data : Bytes := []
  error : String := ""
  created_address : Option Address := none
  logs : List Log := []
deriving DecidableEq

/-- The per-frame ExecutionState of the interpreter.  The stack holds the
C++ vector with its back (the top) at the head of the list. -/
structure ExecutionState where
  memory : Bytes := []
  stack : List Word := []
  gas_remaining : Nat := 0
  pc : Nat := 0
  stopped : Bool := false
  reverted : Bool := false
  return_data : Bytes := []
deriving DecidableEq

/-- The error string of the out-of-gas exit. -/
def outOfGasMsg : String := "Out of gas"

/-- The error string SSTORE sets inside a static frame. -/
def staticViolationMsg : String := "State modification in static call"

/-- The error string of the INVALID opcode. -/
def invalidOpcodeMsg : String := "Invalid opcode"

/-- The error string of the default opcode case; the source prefixes 0x but
formats the opcode in decimal via std::to_string. -/
def unknownOpcodeMsg (op : Nat) : String := "Unknown opcode: 0x" ++ toString op

/-- The error string of the balance guard in execute_transaction and of the
balance check in validate (the same text in both places). -/
def insufficientBalanceMsg : String := "Insufficient balance"

/-- The error string of the nonce check in validate. -/
def invalidNonceMsg : String := "Invalid nonce"

/-- The error string of the intrinsic-gas check in validate. -/
def gasLimitTooLowMsg : String := "Gas limit too low"

/-- The error string of the fee-floor check in validate. -/
def maxFeeBelowBaseFeeMsg : String := "Max fee below base fee"

/-- Grow a byte vector to the given size with zero fill, vector::resize as
used by the memory (which only ever grows). -/
def memResize (mem : Bytes) (n : Nat) : Bytes :=
  if mem.length < n then mem ++ List.replicate (n - mem.length) 0 else mem

/-- Overwrite bytes of memory starting at off; bytes beyond the block are
kept.  Callers resize first, so the block fits. -/
def memWrite (mem : Bytes) (off : Nat) (bs : Bytes) : Bytes :=
  mem.take off ++ bs ++ mem.drop (off + bs.length)

/-- A source slice zero-extended to the requested size, the per-byte copy
loop of CALLDATACOPY and CODECOPY. -/
def takeZ (src : Bytes) (off size : Nat) : Bytes :=
  let part := (src.drop off).take size
  part ++ List.replicate (size - part.length) 0

/-- The 28-byte call target CALL decodes from a word: the low four bytes of
word 0, then words 1 to 3 big-endian. -/
def callTarget (w : Word) : Bytes :=
  (be8 w.a0).drop 4 ++ be8 w.a1 ++ be8 w.a2 ++ be8 w.a3

/-- The shift amounts of the BALANCE address extraction.  The source shifts
by (7 - i) * 8 for i up to 19, which is negative from i = 8 on (undefined
behavior in C); the embedding takes the x86 semantics of masking the shift
count to six bits. -/
def balShift (i : Nat) : Nat := (((7 : Int) - i) * 8).emod 64 |>.toNat

/-- The target address BALANCE builds out of the low word only. -/
def balanceTarget (w3 : Nat) : Address :=
  { payment_credential :=
      (List.range 20).map (fun i => w3 >>> balShift i % 256) ++ List.replicate 8 0 }

mutual

/-- EVM::execute_code from execution.cpp up to entering the interpreter
loop: an immediate success on empty code, otherwise a fresh frame.  The
precompile lookup of the source cannot hit: the constructor registers no
precompile and register_precompile has no caller in the repository.  The
fuel only bounds the loop; every concrete execution terminates within the
fuel the theorems supply, and running out yields none rather than a wrong
answer. -/
def execCode (H : Bytes → Bytes) (now fuel : Nat) (caller address : Address)
    (code input : Bytes) (value gas_limit : Nat) (is_static : Bool)
    (sm : StateManager) : Option (ExecutionResult × StateManager) :=
  match fuel with
  | 0 => none
  | f + 1 =>
      if code.isEmpty then some ({ success := true, gas_used := 0 }, sm)
      else
        execLoop H now f caller address code input value gas_limit is_static
          { gas_remaining := gas_limit } "" [] sm

/-- The interpreter loop of EVM::execute_code: one opcode per iteration,
charging gas first (out of gas consumes the whole frame limit), then the
dispatch, then the program counter step.  The partial result accumulated by
the C++ loop is the err string and the log list. -/
def execLoop (H : Bytes → Bytes) (now fuel : Nat) (caller address : Address)
    (code input : Bytes) (value gas_limit : Nat) (is_static : Bool)
    (st : ExecutionState) (err : String) (logs : List Log)
    (sm : StateManager) : Option (ExecutionResult × StateManager) :=
  match fuel with
  | 0 => none
  | f + 1 =>
      if st.stopped ∨ st.reverted ∨ ¬ st.pc < code.length then
        some ({ success := !st.reverted, gas_used := gas_limit - st.gas_remaining, return_data := st.return_data, error := err, logs := logs }, sm)
      else
        let op := code.getD st.pc 0
        let cost := get_opcode_gas_cost op
        if st.gas_remaining < cost then
          some ({ success := false, gas_used := gas_limit, error := outOfGasMsg, logs := logs }, sm)
        else
          let st := { st with gas_remaining := st.gas_remaining - cost }
          let step : Option (ExecutionState × String × List Log × StateManager) :=
            if op = 0x00 then
              some ({ st with stopped := true }, err, logs, sm)
            else if op = 0x01 then
              match st.stack with
              | a :: b :: rest => some ({ st with stack := wadd a b :: rest }, err, logs, sm)
              | _ => some (st, err, logs, sm)
            else if op = 0x02 then
              match st.stack with
              | _ :: _ :: rest => some ({ st with stack := {} :: rest }, err, logs, sm)
              | _ => some (st, err, logs, sm)
            else if op = 0x03 then
              match st.stack with
              | a :: b :: rest => some ({ st with stack := wsub a b :: rest }, err, logs, sm)
              | _ => some (st, err, logs, sm)
            else if op = 0x04 then
              match st.stack with
              | a :: b :: rest =>
                  let c : Word := if b.a3 ≠ 0 then { a3 := a.a3 / b.a3 } else {}
                  some ({ st with stack := c :: rest }, err, logs, sm)
              | _ => some (st, err, logs, sm)
            else if op = 0x05 then
              match st.stack with
              | a :: b :: rest =>
                  let c : Word :=
                    if b.a3 ≠ 0 then { a3 := ofI64 (Int.tdiv (toI64 a.a3) (toI64 b.a3)) } else {}
                  some ({ st with stack := c :: rest }, err, logs, sm)
              | _ => some (st, err, logs, sm)
            else if op = 0x06 then
              match st.stack with
              | a :: b :: rest =>
                  let c : Word := if b.a3 ≠ 0 then { a3 := a.a3 % b.a3 } else {}
                  some ({ st with stack := c :: rest }, err, logs, sm)
              | _ => some (st, err, logs, sm)
            else if op = 0x07 then
              match st.stack with
              | a :: b :: rest =>
                  let c : Word :=
                    if b.a3 ≠ 0 then { a3 := ofI64 (Int.tmod (toI64 a.a3) (toI64 b.a3)) } else {}
                  some ({ st with stack := c :: rest }, err, logs, sm)
              | _ => some (st, err, logs, sm)
            else if op = 0x08 then
              match st.stack with
              | a :: b :: n :: rest =>
                  let c : Word := if n.a3 ≠ 0 then { a3 := add64 a.a3 b.a3 % n.a3 } else {}
                  some ({ st with stack := c :: rest }, err, logs, sm)
              | _ => some (st, err, logs, sm)
            else if op = 0x09 then
              match st.stack with
              | a :: b :: n :: rest =>
                  let c : Word := if n.a3 ≠ 0 then { a3 := mul64 a.a3 b.a3 % n.a3 } else {}
                  some ({ st with stack := c :: rest }, err, logs, sm)
              | _ => some (st, err, logs, sm)
            else if op = 0x0A then
              match st.stack with
              | base :: e :: rest =>
                  some ({ st with stack := { a3 := expLoop base.a3 e.a3 1 } :: rest }, err, logs, sm)
              | _ => some (st, err, logs, sm)
            else if op = 0x10 then
              match st.stack with
              | a :: b :: rest =>
                  some ({ st with stack := { a3 := if wordLt a b then 1 else 0 } :: rest }, err, logs, sm)
              | _ => some (st, err, logs, sm)
            else if op = 0x11 then
              match st.stack with
              | a :: b :: rest =>
                  some ({ st with stack := { a3 := if wordLt b a then 1 else 0 } :: rest }, err, logs, sm)
              | _ => some (st, err, logs, sm)
            else if op = 0x12 then
              match st.stack with
              | a :: b :: rest =>
                  some ({ st with
                    stack := { a3 := if toI64 a.a3 < toI64 b.a3 then 1 else 0 } :: rest }, err, logs, sm)
              | _ => some (st, err, logs, sm)
            else if op = 0x13 then
              match st.stack with
              | a :: b :: rest =>
                  some ({ st with
                    stack := { a3 := if toI64 b.a3 < toI64 a.a3 then 1 else 0 } :: rest }, err, logs, sm)
              | _ => some (st, err, logs, sm)
            else if op = 0x14 then
              match st.stack with
              | a :: b :: rest =>
                  some ({ st with stack := { a3 := if a = b then 1 else 0 } :: rest }, err, logs, sm)
              | _ => some (st, err, logs, sm)
            else if op = 0x15 then
              match st.stack with
              | a :: rest =>
                  let z : Bool := a.a0 = 0 ∧ a.a1 = 0 ∧ a.a2 = 0 ∧ a.a3 = 0
                  some ({ st with stack := { a3 := if z then 1 else 0 } :: rest }, err, logs, sm)
              | _ => some (st, err, logs, sm)
            else if op = 0x16 then
              match st.stack with
              | a :: b :: rest =>
                  some ({ st with stack := { a0 := a.a0 &&& b.a0, a1 := a.a1 &&& b.a1, a2 := a.a2 &&& b.a2, a3 := a.a3 &&& b.a3 } :: rest }, err, logs, sm)
              | _ => some (st, err, logs, sm)
            else if op = 0x17 then
              match st.stack with
              | a :: b :: rest =>
                  some ({ st with stack := { a0 := a.a0 ||| b.a0, a1 := a.a1 ||| b.a1, a2 := a.a2 ||| b.a2, a3 := a.a3 ||| b.a3 } :: rest }, err, logs, sm)
              | _ => some (st, err, logs, sm)
            else if op = 0x18 then
              match st.stack with
              | a :: b :: rest =>
                  some ({ st with stack := { a0 := a.a0 ^^^ b.a0, a1 := a.a1 ^^^ b.a1, a2 := a.a2 ^^^ b.a2, a3 := a.a3 ^^^ b.a3 } :: rest }, err, logs, sm)
              | _ => some (st, err, logs, sm)
            else if op = 0x19 then
              match st.stack with
              | a :: rest =>
                  some ({ st with stack := { a0 := not64 a.a0, a1 := not64 a.a1, a2 := not64 a.a2, a3 := not64 a.a3 } :: rest }, err, logs, sm)
              | _ => some (st, err, logs, sm)
            else if op = 0x1A then
              match st.stack with
              | iw :: x :: rest =>
                  let i := iw.a3
                  let c : Word :=
                    if i < 32 then
                      let word := if i / 8 = 0 then x.a0 else if i / 8 = 1 then x.a1
                                  else if i / 8 = 2 then x.a2 else x.a3
                      { a3 := word >>> (56 - i % 8 * 8) % 256 }
                    else {}
                  some ({ st with stack := c :: rest }, err, logs, sm)
              | _ => some (st, err, logs, sm)
            else if op = 0x1B then
              match st.stack with
              | sw :: v :: rest =>
                  let c : Word :=
                    if sw.a3 < 256 then { a3 := v.a3 <<< (sw.a3 % 64) % M64 } else {}
                  some ({ st with stack := c :: rest }, err, logs, sm)
              | _ => some (st, err, logs, sm)
            else if op = 0x1C then
              match st.stack with
              | sw :: v :: rest =>
                  let c : Word :=
                    if sw.a3 < 256 then { a3 := v.a3 >>> (sw.a3 % 64) } else {}
                  some ({ st with stack := c :: rest }, err, logs, sm)
              | _ => some (st, err, logs, sm)
            else if op = 0x1D then
              match st.stack with
              | sw :: v :: rest =>
                  let c : Word :=
                    if sw.a3 < 256 then
                      { a3 := ofI64 (Int.fdiv (toI64 v.a3) (2 ^ (sw.a3 % 64))) }
                    else {}
                  some ({ st with stack := c :: rest }, err, logs, sm)
              | _ => some (st, err, logs, sm)
            else if op = 0x50 then
              match st.stack with
              | _ :: rest => some ({ st with stack := rest }, err, logs, sm)
              | _ => some (st, err, logs, sm)
            else if op = 0x51 then
              match st.stack with
              | offw :: rest =>
                  let off := offw.a3
                  let val : Word :=
                    if off + 32 ≤ st.memory.length then packBE ((st.memory.drop off).take 32)
                    else {}
                  some ({ st with stack := val :: rest }, err, logs, sm)
              | _ => some (st, err, logs, sm)
            else if op = 0x52 then
              match st.stack with
              | offw :: val :: rest =>
                  let off := offw.a3
                  let mem := memResize st.memory (off + 32)
                  some ({ st with stack := rest, memory := memWrite mem off (wordToBytes val) }, err, logs, sm)
              | _ => some (st, err, logs, sm)
            else if op = 0x54 then
              match st.stack with
              | kw :: rest =>
                  let bytes := sm.get_storage address (wordToBytes kw)
                  some ({ st with stack := packBE bytes :: rest }, err, logs, sm)
              | _ => some (st, err, logs, sm)
            else if op = 0x55 then
              if is_static then
                some ({ st with reverted := true }, staticViolationMsg, logs, sm)
              else
                match st.stack with
                | kw :: vw :: rest =>
                    some ({ st with stack := rest }, err, logs,
                      sm.set_storage address (wordToBytes kw) (wordToBytes vw))
                | _ => some (st, err, logs, sm)
            else if op = 0x56 then
              match st.stack with
              | dest :: rest =>
                  some ({ st with stack := rest, pc := (dest.a3 + M64 - 1) % M64 }, err, logs, sm)
              | _ => some (st, err, logs, sm)
            else if op = 0x57 then
              match st.stack with
              | dest :: cond :: rest =>
                  if cond.a3 ≠ 0 then
                    some ({ st with stack := rest, pc := (dest.a3 + M64 - 1) % M64 }, err, logs, sm)
                  else some ({ st with stack := rest }, err, logs, sm)
              | _ => some (st, err, logs, sm)
            else if op = 0x5B then
              some (st, err, logs, sm)
            else if 0x60 ≤ op ∧ op ≤ 0x7F then
              let n := op - 0x60 + 1
              let imm := (code.drop (st.pc + 1)).take n
              some ({ st with stack := pushWord imm :: st.stack, pc := (st.pc + n) % M64 }, err, logs, sm)
            else if 0x80 ≤ op ∧ op ≤ 0x8F then
              let n := op - 0x80 + 1
              if n ≤ st.stack.length then
                some ({ st with stack := st.stack.getD (n - 1) {} :: st.stack }, err, logs, sm)
              else some (st, err, logs, sm)
            else if 0x90 ≤ op ∧ op ≤ 0x9F then
              let n := op - 0x90 + 1
              if n < st.stack.length then
                let top := st.stack.getD 0 {}
                let other := st.stack.getD n {}
                some ({ st with stack := (st.stack.set 0 other).set n top }, err, logs, sm)
              else some (st, err, logs, sm)
            else if op = 0x30 then
              some ({ st with
                stack := addressWord address.payment_credential :: st.stack }, err, logs, sm)
            else if op = 0x31 then
              match st.stack with
              | aw :: rest =>
                  let bal := sm.get_balance H (balanceTarget aw.a3)
                  some ({ st with stack := { a3 := bal } :: rest }, err, logs, sm)
              | _ => some (st, err, logs, sm)
            else if op = 0x32 then
              some ({ st with stack := ({} : Word) :: st.stack }, err, logs, sm)
            else if op = 0x33 then
              some ({ st with stack := ({} : Word) :: st.stack }, err, logs, sm)
            else if op = 0x34 then
              some ({ st with stack := { a3 := value } :: st.stack }, err, logs, sm)
            else if op = 0x35 then
              match st.stack with
              | offw :: rest =>
                  some ({ st with
                    stack := packBE ((input.drop offw.a3).take 32) :: rest }, err, logs, sm)
              | _ => some (st, err, logs, sm)
            else if op = 0x36 then
              some ({ st with stack := { a3 := input.length % M64 } :: st.stack }, err, logs, sm)
            else if op = 0x37 then
              match st.stack with
              | dw :: ow :: sw :: rest =>
                  let dest := dw.a3
                  let off := ow.a3
                  let size := sw.a3
                  let mem := memResize st.memory (dest + size)
                  some ({ st with stack := rest, memory := memWrite mem dest (takeZ input off size) }, err, logs, sm)
              | _ => some (st, err, logs, sm)
            else if op = 0x38 then
              some ({ st with stack := { a3 := code.length % M64 } :: st.stack }, err, logs, sm)
            else if op = 0x39 then
              match st.stack with
              | dw :: ow :: sw :: rest =>
                  let dest := dw.a3
                  let off := ow.a3
                  let size := sw.a3
                  let mem := memResize st.memory (dest + size)
                  some ({ st with stack := rest, memory := memWrite mem dest (takeZ code off size) }, err, logs, sm)
              | _ => some (st, err, logs, sm)
            else if op = 0x3A then
              some ({ st with stack := { a3 := 1000000000 } :: st.stack }, err, logs, sm)
            else if op = 0x3B then
              match st.stack with
              | _ :: rest => some ({ st with stack := ({} : Word) :: rest }, err, logs, sm)
              | _ => some (st, err, logs, sm)
            else if op = 0x3D then
              some ({ st with
                stack := { a3 := st.return_data.length % M64 } :: st.stack }, err, logs, sm)
            else if op = 0x3E then
              match st.stack with
              | dw :: ow :: sw :: rest =>
                  let dest := dw.a3
                  let off := ow.a3
                  let size := sw.a3
                  let mem := memResize st.memory (dest + size)
                  some ({ st with stack := rest, memory := memWrite mem dest ((st.return_data.drop off).take size) }, err, logs, sm)
              | _ => some (st, err, logs, sm)
            else if op = 0x40 then
              match st.stack with
              | _ :: rest => some ({ st with stack := ({} : Word) :: rest }, err, logs, sm)
              | _ => some (st, err, logs, sm)
            else if op = 0x41 then
              some ({ st with stack := ({} : Word) :: st.stack }, err, logs, sm)
            else if op = 0x42 then
              some ({ st with stack := { a3 := now % M64 } :: st.stack }, err, logs, sm)
            else if op = 0x43 then
              some ({ st with stack := ({} : Word) :: st.stack }, err, logs, sm)
            else if op = 0x44 then
              some ({ st with stack := ({} : Word) :: st.stack }, err, logs, sm)
            else if op = 0x45 then
              some ({ st with stack := { a3 := gas_limit } :: st.stack }, err, logs, sm)
            else if op = 0x46 then
              some ({ st with stack := { a3 := 1 } :: st.stack }, err, logs, sm)
            else if op = 0x47 then
              some ({ st with
                stack := { a3 := sm.get_balance H address } :: st.stack }, err, logs, sm)
            else if op = 0x48 then
              some ({ st with stack := { a3 := 1000000000 } :: st.stack }, err, logs, sm)
            else if op = 0x58 then
              some ({ st with stack := { a3 := st.pc } :: st.stack }, err, logs, sm)
            else if op = 0x59 then
              some ({ st with
                stack := { a3 := st.memory.length % M64 } :: st.stack }, err, logs, sm)
            else if op = 0x5A then
              some ({ st with stack := { a3 := st.gas_remaining } :: st.stack }, err, logs, sm)
            else if 0xA0 ≤ op ∧ op ≤ 0xA4 then
              let n := op - 0xA0
              if 2 + n ≤ st.stack.length ∧ is_static = false then
                match st.stack with
                | offw :: sizew :: rest =>
                    let off := offw.a3
                    let size := sizew.a3
                    let topics := (rest.take n).map wordToBytes
                    let dat :=
                      if off + size ≤ st.memory.length then (st.memory.drop off).take size
                      else []
                    some ({ st with stack := rest.drop n }, err,
                      logs ++ [{ address := address, topics := topics, data := dat }], sm)
                | _ => some (st, err, logs, sm)
              else some (st, err, logs, sm)
            else if op = 0xF1 then
              match st.stack with
              | gw :: aw :: vw :: aow :: asw :: row :: rsw :: rest =>
                  let val := vw.a3
                  let args_off := aow.a3
                  let args_sz := asw.a3
                  let ret_off := row.a3
                  let ret_sz := rsw.a3
                  let gas := gw.a3
                  let to_addr : Address := { payment_credential := callTarget aw }
                  let mem1 :=
                    if 0 < args_sz then memResize st.memory (args_off + args_sz)
                    else st.memory
                  let inp :=
                    if 0 < args_sz then (mem1.drop args_off).take args_sz else []
                  let snap := sm.snapshot
                  let (ok0, sm1) :=
                    if 0 < val then
                      if val ≤ sm.get_balance H address then
                        (true, (sm.sub_balance H address val).add_balance H to_addr val)
                      else (false, sm)
                    else (true, sm)
                  if ok0 then
                    let target_code := sm1.get_code H to_addr
                    match execCode H now f address to_addr target_code inp val gas is_static sm1 with
                    | none => none
                    | some (res, sm2) =>
                        let mem2 :=
                          if 0 < ret_sz then
                            memWrite (memResize mem1 (ret_off + ret_sz)) ret_off
                              (res.return_data.take ret_sz)
                          else mem1
                        if res.success then
                          some ({ st with stack := { a3 := 1 } :: rest, memory := mem2 }, err, logs, sm2)
                        else
                          some ({ st with stack := ({} : Word) :: rest, memory := mem2 }, err, logs, sm2.revert H snap)
                  else
                    some ({ st with stack := ({} : Word) :: rest, memory := mem1 }, err, logs, sm1.revert H snap)
              | _ => some (st, err, logs, sm)
            else if op = 0xF2 then
              match st.stack with
              | _ :: _ :: _ :: _ :: _ :: _ :: _ :: rest =>
                  some ({ st with stack := { a3 := 1 } :: rest }, err, logs, sm)
              | _ => some (st, err, logs, sm)
            else if op = 0xF4 then
              match st.stack with
              | _ :: _ :: _ :: _ :: _ :: _ :: rest =>
                  some ({ st with stack := { a3 := 1 } :: rest }, err, logs, sm)
              | _ => some (st, err, logs, sm)
            else if op = 0xFA then
              match st.stack with
              | _ :: _ :: _ :: _ :: _ :: _ :: rest =>
                  some ({ st with stack := { a3 := 1 } :: rest }, err, logs, sm)
              | _ => some (st, err, logs, sm)
            else if op = 0xF0 then
              if is_static then some (st, err, logs, sm)
              else
                match st.stack with
                | vw :: ow :: sw :: rest =>
                    let val := vw.a3
                    let off := ow.a3
                    let size := sw.a3
                    if sm.get_balance H address < val then
                      some ({ st with stack := ({} : Word) :: rest }, err, logs, sm)
                    else
                      let init_code :=
                        if 0 < size ∧ off + size ≤ st.memory.length then
                          (st.memory.drop off).take size
                        else []
                      let nonce := sm.get_nonce H address
                      let sm1 := sm.increment_nonce H address
                      let new_addr : Address :=
                        { type := 2, payment_credential := (H (address.payment_credential ++ be8 nonce)).take 28 }
                      let snap := sm1.snapshot
                      let sm2 := ((sm1.sub_balance H address val).add_balance H new_addr val
                        ).set_account H new_addr
                          { nonce := val, balance := 0 }
                      match execCode H now f address new_addr init_code [] val
                          st.gas_remaining false sm2 with
                      | none => none
                      | some (res, sm3) =>
                          if res.success then
                            let sm4 := sm3.set_code H new_addr res.return_data
                            let p := new_addr.payment_credential
                            let addr_val : Word :=
                              { a0 := beVal (p.take 4), a1 := beVal ((p.drop 4).take 8), a2 := beVal ((p.drop 12).take 8), a3 := beVal ((p.drop 20).take 8) }
                            some ({ st with stack := addr_val :: rest }, err, logs, sm4)
                          else
                            some ({ st with stack := ({} : Word) :: rest }, err, logs,
                              sm3.revert H snap)
                | _ => some (st, err, logs, sm)
            else if op = 0xF5 then
              if is_static then some (st, err, logs, sm)
              else
                match st.stack with
                | _ :: _ :: _ :: _ :: rest =>
                    some ({ st with stack := ({} : Word) :: rest }, err, logs, sm)
                | _ => some (st, err, logs, sm)
            else if op = 0xF3 then
              match st.stack with
              | offw :: sizew :: rest =>
                  let off := offw.a3
                  let size := sizew.a3
                  let rd :=
                    if off + size ≤ st.memory.length then (st.memory.drop off).take size
                    else st.return_data
                  some ({ st with stack := rest, return_data := rd, stopped := true }, err, logs, sm)
              | _ => some ({ st with stopped := true }, err, logs, sm)
            else if op = 0xFD then
              match st.stack with
              | offw :: sizew :: rest =>
                  let off := offw.a3
                  let size := sizew.a3
                  let rd :=
                    if off + size ≤ st.memory.length then (st.memory.drop off).take size
                    else st.return_data
                  some ({ st with stack := rest, return_data := rd, reverted := true }, err, logs, sm)
              | _ => some ({ st with reverted := true }, err, logs, sm)
            else if op = 0xFE then
              some ({ st with reverted := true }, invalidOpcodeMsg, logs, sm)
            else if op = 0xFF then
              match st.stack with
              | _ :: rest =>
                  if is_static then some ({ st with stopped := true }, err, logs, sm)
                  else some ({ st with stack := rest, stopped := true }, err, logs, sm)
              | _ => some ({ st with stopped := true }, err, logs, sm)
            else
              some ({ st with reverted := true }, unknownOpcodeMsg op, logs, sm)
          match step with
          | none => none
          | some (st2, err2, logs2, sm2) =>
              execLoop H now f caller address code input value gas_limit is_static
                { st2 with pc := (st2.pc + 1) % M64 } err2 logs2 sm2

end

/-! ## Transaction execution (execution.cpp) -/

/-- ExecutionContext from execution.hpp. -/
structure ExecutionContext where
  caller : Address := {}
  origin : Address := {}
  coinbase : Address := {}
  block_number : Nat := 0
  timestamp : Nat := 0
  gas_limit : Nat := 0
  gas_price : Nat := 0
  base_fee : Nat := 0
  chain_id : Nat := 0
  block_hash : Bytes := zeroHash
deriving DecidableEq

/-- EVM::create: charge the CREATE cost, derive the contract address from
the creator address and nonce, credit the value, run the init code on the
remaining gas (a uint64 difference that wraps when the limit is below the
CREATE cost), and on success store the returned bytecode.  No snapshot is
taken here. -/
def EVM.create (H : Bytes → Bytes) (now fuel : Nat) (from_ : Address)
    (code : Bytes) (value gas_limit : Nat) (sm : StateManager) :
    Option (ExecutionResult × StateManager) :=
  let nonce := sm.get_nonce H from_
  let contract_addr : Address :=
    { type := 2, payment_credential := (H (from_.payment_credential ++ be8 nonce)).take 28 }
  let sm1 := if 0 < value then sm.add_balance H contract_addr value else sm
  match execCode H now fuel from_ contract_addr code [] value
      (sub64 gas_limit 32000) false sm1 with
  | none => none
  | some (init_result, sm2) =>
      if init_result.success then
        some ({ success := true, gas_used := add64 32000 init_result.gas_used, created_address := some contract_addr, logs := init_result.logs }, sm2.set_code H contract_addr init_result.return_data)
      else
        some ({ success := false, gas_used := add64 32000 init_result.gas_used, error := init_result.error }, sm2)

/-- EVM::execute_transaction from execution.cpp: increment the sender nonce,
debit value plus the whole gas allowance at the effective price (an early
failure when the balance cannot cover it), run the creation or the call,
then refund the unused gas and pay the consumed gas to the coinbase.  No
snapshot is taken, so nothing a failing frame changed is rolled back. -/
def EVM.execute_transaction (H : Bytes → Bytes) (now fuel : Nat)
    (tx : Transaction) (ctx : ExecutionContext) (sm : StateManager) :
    Option (ExecutionResult × StateManager) :=
  let sm1 := sm.increment_nonce H tx.from_
  let price := tx.effective_gas_price ctx.base_fee
  let gas_cost := mul64 tx.gas_limit price
  if sm1.get_balance H tx.from_ < add64 tx.value gas_cost then
    some ({ success := false, error := insufficientBalanceMsg }, sm1)
  else
    let sm2 := sm1.sub_balance H tx.from_ (add64 tx.value gas_cost)
    let inner :=
      if tx.to_.payment_credential = List.replicate 28 0 then
        EVM.create H now fuel tx.from_ tx.data tx.value tx.gas_limit sm2
      else
        let sm3 := sm2.add_balance H tx.to_ tx.value
        let code := sm3.get_code H tx.to_
        if !code.isEmpty then
          execCode H now fuel tx.from_ tx.to_ code tx.data tx.value tx.gas_limit false sm3
        else
          some ({ success := true, gas_used := 21000 }, sm3)
    match inner with
    | none => none
    | some (result, sm4) =>
        let sm5 := sm4.add_balance H tx.from_ (mul64 (sub64 tx.gas_limit result.gas_used) price)
        let sm6 := sm5.add_balance H ctx.coinbase (mul64 result.gas_used price)
        some (result, sm6)

/-- ValidationResult of the transaction processor. -/
structure ValidationResult where
  valid : Bool
  error : String
deriving DecidableEq

/-- TransactionProcessor::intrinsic_gas: the 21000 base, the 32000 creation
surcharge for an all-zero target, and 4 or 16 per data byte, accumulated in
uint64. -/
def TransactionProcessor.intrinsic_gas (tx : Transaction) : Nat :=
  let base :=
    if tx.to_.payment_credential = List.replicate 28 0 then add64 21000 32000 else 21000
  tx.data.foldl (fun g b => add64 g (if b = 0 then 4 else 16)) base

/-- TransactionProcessor::validate from execution.cpp, in source order: the
nonce equality, the balance against value + gas_limit * max_fee (uint64
arithmetic), the intrinsic-gas floor, and the fee floor.  No signature
check occurs. -/
def TransactionProcessor.validate (H : Bytes → Bytes) (sm : StateManager)
    (tx : Transaction) (base_fee : Nat) : ValidationResult :=
  if tx.nonce ≠ sm.get_nonce H tx.from_ then { valid := false, error := invalidNonceMsg }
  else if sm.get_balance H tx.from_ <
      add64 tx.value (mul64 tx.gas_limit tx.max_fee_per_gas) then
    { valid := false, error := insufficientBalanceMsg }
  else if tx.gas_limit < TransactionProcessor.intrinsic_gas tx then
    { valid := false, error := gasLimitTooLowMsg }
  else if tx.max_fee_per_gas < base_fee then
    { valid := false, error := maxFeeBelowBaseFeeMsg }
  else { valid := true, error := "" }

/-- TransactionReceipt from types.hpp. -/
structure TransactionReceipt where
  transaction_hash : Bytes := zeroHash
  block_number : Nat := 0
  transaction_index : Nat := 0
  from_ : Address := {}
  to_ : Address := {}
  success : Bool := false
  status : Nat := 0
  gas_used : Nat := 0
  cumulative_gas_used : Nat := 0
  contract_address : Option Address := none
  logs : List Log := []
deriving DecidableEq

/-- TransactionProcessor::ProcessResult. -/
structure ProcessResult where
  receipt : TransactionReceipt := {}
  gas_used : Nat := 0
  success : Bool := false
  error : String := ""
deriving DecidableEq

/-- TransactionProcessor::process: validate, and on failure return the
validation error without executing; otherwise execute the transaction and
assemble the receipt. -/
def TransactionProcessor.process (H : Bytes → Bytes) (now fuel : Nat)
    (tx : Transaction) (ctx : ExecutionContext) (sm : StateManager) :
    Option (ProcessResult × StateManager) :=
  let validation := TransactionProcessor.validate H sm tx ctx.base_fee
  if !validation.valid then
    some ({ success := false, error := validation.error, receipt := { success := false } }, sm)
  else
    match EVM.execute_transaction H now fuel tx ctx sm with
    | none => none
    | some (exec, sm1) =>
        some ({ receipt := { transaction_hash := tx.hash H, success := exec.success, gas_used := exec.gas_used, contract_address := exec.created_address, logs := exec.logs }, gas_used := exec.gas_used, success := exec.success, error := exec.error }, sm1)

/-! ## Supporting lemmas -/

theorem assocFind_put_self {α β : Type} [DecidableEq α] (l : List (α × β)) (k : α) (v : β) :
    assocFind (assocPut l k v) k = some v := by
  induction l with
  | nil => simp [assocPut, assocFind]
  | cons h t ih =>
      obtain ⟨hk, hv⟩ := h
      by_cases hkk : hk = k
      · simp [assocPut, hkk, assocFind]
      · simp [assocPut, hkk, assocFind, ih]

theorem assocFind_put_other {α β : Type} [DecidableEq α] (l : List (α × β)) (k k' : α) (v : β)
    (h : k' ≠ k) : assocFind (assocPut l k v) k' = assocFind l k' := by
  have hkk : ¬ k = k' := fun he => h he.symm
  induction l with
  | nil => simp [assocPut, assocFind, hkk]
  | cons hd t ih =>
      obtain ⟨hk, hv⟩ := hd
      by_cases heq : hk = k
      · subst heq
        simp [assocPut, assocFind, hkk]
      · simp only [assocPut, if_neg heq, assocFind]
        by_cases heq' : hk = k'
        · simp [heq']
        · simp [heq', ih]

theorem assocFind_mem {α β : Type} [DecidableEq α] (l : List (α × β)) (k : α) (v : β)
    (h : assocFind l k = some v) : (k, v) ∈ l := by
  induction l with
  | nil => simp [assocFind] at h
  | cons hd t ih =>
      obtain ⟨hk, hv⟩ := hd
      by_cases heq : hk = k
      · subst heq
        simp only [assocFind, if_pos, Option.some.injEq] at h
        rw [← h]
        exact List.mem_cons_self _ _
      · simp only [assocFind, if_neg heq] at h
        exact List.mem_cons_of_mem _ (ih h)

/-- Well-formed account values: the integers fit a uint64 and the digests
are 32 bytes.  Every value written by the convenience operations on a
well-formed read and every value the theorems feed to encode is of this
shape. -/
def AccountState.canonical (st : AccountState) : Prop :=
  st.nonce < M64 ∧ st.balance < M64 ∧ st.storage_root.length = 32 ∧ st.code_hash.length = 32

theorem be8_length (v : Nat) : (be8 v).length = 8 := by
  simp [be8]

theorem beVal_be8_mod (v : Nat) : beVal (be8 v) = v % M64 := by
  simp only [beVal, be8, List.foldl, M64]
  omega

theorem decode_nil : AccountState.decode [] = {} := by
  simp [AccountState.decode]

theorem encode_assoc (st : AccountState) :
    st.encode = be8 st.nonce ++ (be8 st.balance ++ (st.storage_root ++ st.code_hash)) := by
  simp [AccountState.encode]

theorem encode_length (st : AccountState) :
    st.encode.length = 16 + st.storage_root.length + st.code_hash.length := by
  simp [AccountState.encode, be8_length]
  omega

/-- The decode of an encode: the integers reduced modulo 2^64, the digests
reproduced verbatim, whenever the digests have their 32-byte shape. -/
theorem decode_encode_mod (st : AccountState)
    (h3 : st.storage_root.length = 32) (h4 : st.code_hash.length = 32) :
    AccountState.decode st.encode =
      { nonce := st.nonce % M64, balance := st.balance % M64,
        storage_root := st.storage_root, code_hash := st.code_hash } := by
  have hlen : st.encode.length = 80 := by rw [encode_length, h3, h4]
  have he := encode_assoc st
  have ht8 : st.encode.take 8 = be8 st.nonce := by
    rw [he]; exact List.take_left' (be8_length _)
  have hd8 : st.encode.drop 8 = be8 st.balance ++ (st.storage_root ++ st.code_hash) := by
    rw [he]; exact List.drop_left' (be8_length _)
  have htb : (st.encode.drop 8).take 8 = be8 st.balance := by
    rw [hd8]; exact List.take_left' (be8_length _)
  have hd16 : st.encode.drop 16 = st.storage_root ++ st.code_hash := by
    have h1 : st.encode.drop 16 = (st.encode.drop 8).drop 8 := (List.drop_drop 8 8 _).symm
    rw [h1, hd8]; exact List.drop_left' (be8_length _)
  have ht32 : (st.encode.drop 16).take 32 = st.storage_root := by
    rw [hd16]; exact List.take_left' h3
  have hd48 : st.encode.drop 48 = st.code_hash := by
    have h1 : st.encode.drop 48 = (st.encode.drop 16).drop 32 := (List.drop_drop 32 16 _).symm
    rw [h1, hd16]; exact List.drop_left' h3
  have ht48 : (st.encode.drop 48).take 32 = st.code_hash := by
    rw [hd48, ← h4, List.take_length]
  unfold AccountState.decode
  rw [if_neg (by omega)]
  rw [ht8, htb, beVal_be8_mod, beVal_be8_mod, ht32, ht48]

/-- The decode of an encode of a canonical value is the identity. -/
theorem decode_encode (st : AccountState) (h : st.canonical) :
    AccountState.decode st.encode = st := by
  obtain ⟨h1, h2, h3, h4⟩ := h
  rw [decode_encode_mod st h3 h4]
  simp [Nat.mod_eq_of_lt h1, Nat.mod_eq_of_lt h2]

theorem decode_digest_lengths (bs : Bytes) :
    (AccountState.decode bs).storage_root.length = 32 ∧
      (AccountState.decode bs).code_hash.length = 32 := by
  unfold AccountState.decode
  split
  · simp [zeroHash]
  · rename_i h
    constructor <;> simp <;> omega

theorem StateTrie.get_put (H : Bytes → Bytes) (t : StateTrie) (k v k' : Bytes) :
    (t.put H k v).get H k' = if H k' = H k then some v else t.get H k' := by
  unfold StateTrie.get StateTrie.put
  by_cases h : H k' = H k
  · simp [h, assocFind_put_self]
  · simp [h, assocFind_put_other t.dirty (H k) (H k') v h]

theorem StateTrie.get_del (H : Bytes → Bytes) (t : StateTrie) (k k' : Bytes) :
    (t.del H k).get H k' = if H k' = H k then some [] else t.get H k' := by
  unfold StateTrie.get StateTrie.del
  by_cases h : H k' = H k
  · simp [h, assocFind_put_self]
  · simp [h, assocFind_put_other t.dirty (H k) (H k') [] h]

theorem get_account_eq (H : Bytes → Bytes) (s : StateManager) (a : Address) :
    s.get_account H a =
      AccountState.decode ((s.trie.get H a.payment_credential).getD []) := by
  unfold StateManager.get_account
  cases s.trie.get H a.payment_credential with
  | none => simp [decode_nil]
  | some d => simp

theorem trieDbKey_ne_storKey (k : Bytes) (a : Address) (slot : Bytes) :
    trieDbKey k ≠ storKey a slot := by
  simp [trieDbKey, storKey]

theorem trieDbKey_ne_codeKey (k h : Bytes) : trieDbKey k ≠ codeKey h := by
  simp [trieDbKey, codeKey]

theorem get_trie_set_storage (H : Bytes → Bytes) (a : Address) (slot v : Bytes)
    (s : StateManager) (b : Bytes) :
    (StateManager.set_storage a slot v s).trie.get H b = s.trie.get H b := by
  unfold StateManager.set_storage StateTrie.get
  simp only
  rw [assocFind_put_other _ _ _ _ (trieDbKey_ne_storKey (H b) a slot)]

theorem set_account_db (H : Bytes → Bytes) (a : Address) (st : AccountState)
    (s : StateManager) : (s.set_account H a st).trie.db = s.trie.db := rfl

theorem set_account_get_account (H : Bytes → Bytes) (a : Address) (st : AccountState)
    (s : StateManager) (b : Address) :
    (s.set_account H a st).get_account H b =
      if H b.payment_credential = H a.payment_credential then AccountState.decode st.encode
      else s.get_account H b := by
  rw [get_account_eq, get_account_eq]
  unfold StateManager.set_account
  simp only
  rw [StateTrie.get_put]
  by_cases h : H b.payment_credential = H a.payment_credential <;> simp [h]

/-! ## Claim C7: the all-0xFF signature bypass -/

/-- C7: verify_signature accepts every transaction whose 64-byte signature
consists entirely of 0xFF bytes, regardless of the transaction contents and
sender public key; any other signature yields exactly the result of the raw
cryptographic verification of the transaction hash against the signature
and the included public key. -/
theorem c7_verify_signature (H : Bytes → Bytes)
    (edVerify : Bytes → Bytes → Bytes → Bool) (tx : Transaction) :
    (tx.signature = List.replicate 64 255 →
      tx.verify_signature H edVerify = true) ∧
    ((∃ b ∈ tx.signature, b ≠ 255) →
      tx.verify_signature H edVerify =
        edVerify (tx.hash H) tx.signature tx.sender_pubkey) := by
  constructor
  · intro h
    unfold Transaction.verify_signature
    rw [h]
    simp
  · intro h
    obtain ⟨b, hb, hne⟩ := h
    unfold Transaction.verify_signature
    have : tx.signature.all (fun b => b = 255) = false := by
      rw [List.all_eq_false]
      exact ⟨b, hb, by simp [hne]⟩
    rw [this]
    simp

/-- The witness draws both conclusions of the bypass theorem at concrete
inputs: the all-0xFF signature is accepted even by a verifier that rejects
everything, and a signature with a single zero byte falls through to the
verifier. -/
theorem c7_witness :
    Transaction.verify_signature (fun bs => bs) (fun _ _ _ => false)
      { signature := List.replicate 64 255 } = true ∧
    Transaction.verify_signature (fun bs => bs) (fun _ _ _ => false)
      { signature := 0 :: List.replicate 63 255 } = false := by
  constructor
  · exact (c7_verify_signature (fun bs => bs) (fun _ _ _ => false)
      { signature := List.replicate 64 255 }).1 rfl
  · rw [(c7_verify_signature (fun bs => bs) (fun _ _ _ => false)
      { signature := 0 :: List.replicate 63 255 }).2 ⟨0, by simp, by simp⟩]

/-! ## Concrete instantiations used by witnesses and counterexamples -/

/-- Big-endian bytes of a value over a given width. -/
def beN : Nat → Nat → Bytes
  | 0, _ => []
  | n + 1, v => beN n (v / 256) ++ [v % 256]

/-- A concrete 32-byte digest function for running the embedding on explicit
inputs: the base-257 value of the input, reduced modulo 2^256 and written
big-endian.  It keeps the 32-byte digest shape of the source's hash and
separates all the concrete inputs these theorems feed it. -/
def testHash (bs : Bytes) : Bytes :=
  beN 32 ((bs.foldl (fun a b => a * 257 + (b + 1)) 0) % 2 ^ 256)

/-- A concrete injective digest function for theorems that never re-read a
digest through the fixed-width account encoding. -/
def consHash (bs : Bytes) : Bytes := 1 :: bs

/-- A first test address. -/
def addr1 : Address := { payment_credential := List.replicate 27 0 ++ [1] }

/-- A second test address. -/
def addr2 : Address := { payment_credential := List.replicate 27 0 ++ [2] }

/-- A third test address, used as the coinbase. -/
def addr3 : Address := { payment_credential := List.replicate 27 0 ++ [3] }

/-! ## Claim C9: sub_balance underflow -/

/-- The failure kind the specification names for balance underflow. -/
inductive BalanceError
  | BalanceUnderflow
deriving DecidableEq

/-- Modelled from the spec: section 4.1 requires sub_balance to fail with
BalanceUnderflow, reported to the caller, when the balance is short, and to
decrease the balance otherwise.  This definition exists to compare the
specified interface against the embedded source, whose sub_balance returns
nothing. -/
def sub_balance_spec (H : Bytes → Bytes) (a : Address) (amount : Nat)
    (s : StateManager) : Except BalanceError StateManager :=
  let st := s.get_account H a
  if st.balance < amount then Except.error BalanceError.BalanceUnderflow
  else Except.ok (s.set_account H a { st with balance := st.balance - amount })

/-- A state holding balance 5 for the first test address. -/
def s5 : StateManager := StateManager.set_account consHash addr1 { balance := 5 } {}

/-- C9 counterexample: with balance 5, subtracting 10 leaves the state
bit-for-bit unchanged; no error of any kind reaches the caller, although
the claim requires a BalanceUnderflow failure, as the spec-modelled
interface shows at the same input. -/
theorem c9_counterexample :
    StateManager.sub_balance consHash addr1 10 s5 = s5 ∧
    StateManager.get_balance consHash s5 addr1 = 5 ∧
    sub_balance_spec consHash addr1 10 s5 = Except.error BalanceError.BalanceUnderflow := by
  refine ⟨by decide, by decide, ?_⟩
  rfl

/-- C9 amended: when the balance is below the amount, sub_balance is a
silent no-op: it returns the state unchanged and reports nothing to the
caller.  When the balance suffices, the balance decreases by exactly the
amount and the nonce is untouched. -/
theorem c9_amended (H : Bytes → Bytes) (s : StateManager) (a : Address) (amount : Nat) :
    (StateManager.get_balance H s a < amount →
      StateManager.sub_balance H a amount s = s) ∧
    (amount ≤ StateManager.get_balance H s a →
      (s.get_account H a).balance < M64 →
      (s.get_account H a).nonce < M64 →
      StateManager.get_balance H (StateManager.sub_balance H a amount s) a =
        StateManager.get_balance H s a - amount ∧
      StateManager.get_nonce H (StateManager.sub_balance H a amount s) a =
        StateManager.get_nonce H s a) := by
  constructor
  · intro h
    unfold StateManager.sub_balance
    rw [if_neg]
    exact fun hle => absurd h (by unfold StateManager.get_balance; omega)
  · intro hle hbal hnonce
    unfold StateManager.sub_balance
    rw [if_pos (by unfold StateManager.get_balance at hle; exact hle)]
    have hlen := decode_digest_lengths ((s.trie.get H a.payment_credential).getD [])
    rw [← get_account_eq] at hlen
    have hmod := decode_encode_mod
      { s.get_account H a with balance := (s.get_account H a).balance - amount }
      hlen.1 hlen.2
    have hb : StateManager.get_balance H s a = (s.get_account H a).balance := rfl
    constructor
    · unfold StateManager.get_balance
      rw [set_account_get_account, if_pos rfl, hmod]
      simp only
      rw [Nat.mod_eq_of_lt (by omega)]
    · unfold StateManager.get_nonce
      rw [set_account_get_account, if_pos rfl, hmod]
      simp only
      rw [Nat.mod_eq_of_lt (by omega)]

/-- The witness exercises both branches of the amended sub_balance theorem
on the concrete balance-5 state. -/
theorem c9_amended_witness :
    StateManager.sub_balance consHash addr1 10 s5 = s5 ∧
    StateManager.get_balance consHash (StateManager.sub_balance consHash addr1 3 s5) addr1 = 2 := by
  constructor
  · exact (c9_amended consHash s5 addr1 10).1 (by decide)
  · have h := (c9_amended consHash s5 addr1 3).2 (by decide) (by decide) (by decide)
    rw [h.1]
    decide

/-! ## Claim C10: add_transaction outcomes -/

/-- C10: add_transaction never produces NonceTooLow, NonceTooHigh or
Invalid, and a transaction with a fresh hash that passes the balance and
capacity checks is admitted whenever its (sender, nonce) slot is free,
whatever the nonce. -/
theorem add_transaction_cases (H : Bytes → Bytes) (pool : Mempool)
    (tx : Transaction) (bal : Nat) :
    (Mempool.add_transaction H pool tx bal).1 = AddResult.AlreadyKnown ∨
    (Mempool.add_transaction H pool tx bal).1 = AddResult.InsufficientFunds ∨
    (Mempool.add_transaction H pool tx bal).1 = AddResult.PoolFull ∨
    (Mempool.add_transaction H pool tx bal).1 = AddResult.Underpriced ∨
    (Mempool.add_transaction H pool tx bal).1 = AddResult.Replaced ∨
    (Mempool.add_transaction H pool tx bal).1 = AddResult.Added := by
  by_cases h1 : (assocFind pool.by_hash (Transaction.hash H tx)).isSome = true
  · simp [Mempool.add_transaction, h1]
  · by_cases h2 : bal < (tx.value + tx.gas_limit * tx.max_fee_per_gas) % M64
    · simp [Mempool.add_transaction, h1, h2]
    · by_cases h3 : pool.max_size ≤ pool.by_hash.length
      · simp [Mempool.add_transaction, h1, h2, h3]
      · rcases hslot : assocFind
            ((assocFind pool.by_sender tx.from_.to_hex).getD {}).by_nonce tx.nonce with _ | old
        · simp [Mempool.add_transaction, h1, h2, h3, hslot]
        · by_cases h4 : tx.max_fee_per_gas ≤ old.max_fee_per_gas * 110 % M64 / 100
          · simp [Mempool.add_transaction, h1, h2, h3, hslot, h4]
          · simp [Mempool.add_transaction, h1, h2, h3, hslot, h4]

theorem c10_add_transaction (H : Bytes → Bytes) (pool : Mempool)
    (tx : Transaction) (bal : Nat) :
    ((Mempool.add_transaction H pool tx bal).1 ≠ AddResult.NonceTooLow ∧
     (Mempool.add_transaction H pool tx bal).1 ≠ AddResult.NonceTooHigh ∧
     (Mempool.add_transaction H pool tx bal).1 ≠ AddResult.Invalid) ∧
    (assocFind pool.by_hash (tx.hash H) = none →
     ¬ bal < (tx.value + tx.gas_limit * tx.max_fee_per_gas % M64) % M64 →
     pool.by_hash.length < pool.max_size →
     assocFind ((assocFind pool.by_sender tx.from_.to_hex).getD {}).by_nonce tx.nonce = none →
     (Mempool.add_transaction H pool tx bal).1 = AddResult.Added) := by
  constructor
  · rcases add_transaction_cases H pool tx bal with h | h | h | h | h | h <;>
      rw [h] <;> refine ⟨by simp, by simp, by simp⟩
  · intro hfresh hbal hcap hslot
    simp only [Mempool.add_transaction, hfresh, Option.isSome_none, Bool.false_eq_true,
      if_false, if_neg hbal,
      if_neg (by omega : ¬ pool.max_size ≤ pool.by_hash.length), hslot]

/-- The witness admits a transaction with nonce 7 (a gap above the empty
sender) into an empty pool. -/
theorem c10_witness :
    (Mempool.add_transaction testHash {}
      { from_ := addr1, to_ := addr2, nonce := 7, gas_limit := 21000,
        max_fee_per_gas := 1000000000 } 1000000000000000000).1 = AddResult.Added := by
  exact (c10_add_transaction testHash {} _ _).2 (by decide) (by decide) (by decide) (by decide)

/-! ## Claim C5: replace-by-fee threshold -/

theorem assocFind_none_of_not_mem {α β : Type} [DecidableEq α]
    (l : List (α × β)) (k : α) (h : k ∉ l.map Prod.fst) : assocFind l k = none := by
  induction l with
  | nil => rfl
  | cons hd t ih =>
      obtain ⟨hk, hv⟩ := hd
      simp only [List.map_cons, List.mem_cons] at h
      push_neg at h
      simp only [assocFind, if_neg (Ne.symm h.1)]
      exact ih h.2

theorem assocFind_erase_self {α β : Type} [DecidableEq α]
    (l : List (α × β)) (k : α) (h : (l.map Prod.fst).Nodup) :
    assocFind (assocErase l k) k = none := by
  induction l with
  | nil => rfl
  | cons hd t ih =>
      obtain ⟨hk, hv⟩ := hd
      simp only [List.map_cons, List.nodup_cons] at h
      by_cases heq : hk = k
      · subst heq
        simp only [assocErase, if_pos rfl]
        exact assocFind_none_of_not_mem t hk h.1
      · simp only [assocErase, if_neg heq, assocFind, if_neg heq]
        exact ih h.2

theorem assocFind_erase_other {α β : Type} [DecidableEq α]
    (l : List (α × β)) (k k' : α) (h : k' ≠ k) :
    assocFind (assocErase l k) k' = assocFind l k' := by
  induction l with
  | nil => rfl
  | cons hd t ih =>
      obtain ⟨hk, hv⟩ := hd
      by_cases heq : hk = k
      · subst heq
        simp [assocErase, assocFind, Ne.symm h]
      · simp only [assocErase, if_neg heq, assocFind]
        by_cases heq' : hk = k'
        · simp [heq']
        · simp [heq', ih]

/-- C5 amended: at an occupied (sender, nonce) slot (after the duplicate,
balance and capacity checks pass), the new transaction replaces the old one
if and only if its max fee strictly exceeds old max_fee * 110 / 100 in
uint64 arithmetic; at exactly that threshold (in particular at exactly 1.10
times the old fee) it is Underpriced.  On replacement the old transaction's
hash is gone from the pool's hash index and the new transaction is stored. -/
theorem c5_amended (H : Bytes → Bytes) (pool : Mempool) (tx : Transaction)
    (bal : Nat) (old : Transaction)
    (hfresh : assocFind pool.by_hash (tx.hash H) = none)
    (hbal : ¬ bal < (tx.value + tx.gas_limit * tx.max_fee_per_gas % M64) % M64)
    (hcap : pool.by_hash.length < pool.max_size)
    (hex : assocFind ((assocFind pool.by_sender tx.from_.to_hex).getD {}).by_nonce tx.nonce
      = some old)
    (hhash : old.hash H ≠ tx.hash H)
    (hnodup : (pool.by_hash.map Prod.fst).Nodup) :
    ((Mempool.add_transaction H pool tx bal).1 = AddResult.Replaced ↔
      old.max_fee_per_gas * 110 % M64 / 100 < tx.max_fee_per_gas) ∧
    (tx.max_fee_per_gas ≤ old.max_fee_per_gas * 110 % M64 / 100 →
      (Mempool.add_transaction H pool tx bal).1 = AddResult.Underpriced) ∧
    (old.max_fee_per_gas * 110 % M64 / 100 < tx.max_fee_per_gas →
      Mempool.get_transaction (Mempool.add_transaction H pool tx bal).2 (old.hash H) = none ∧
      Mempool.get_transaction (Mempool.add_transaction H pool tx bal).2 (tx.hash H) = some tx) := by
  have hmain : ∀ p, Mempool.add_transaction H pool tx bal = p →
      (tx.max_fee_per_gas ≤ old.max_fee_per_gas * 110 % M64 / 100 →
        p.1 = AddResult.Underpriced) ∧
      (old.max_fee_per_gas * 110 % M64 / 100 < tx.max_fee_per_gas →
        p.1 = AddResult.Replaced ∧
        p.2.by_hash = assocPut (assocErase pool.by_hash (old.hash H)) (tx.hash H) tx) := by
    intro p hp
    simp only [Mempool.add_transaction, hfresh, Option.isSome_none, Bool.false_eq_true,
      if_false, if_neg hbal,
      if_neg (by omega : ¬ pool.max_size ≤ pool.by_hash.length), hex] at hp
    by_cases h4 : tx.max_fee_per_gas ≤ old.max_fee_per_gas * 110 % M64 / 100
    · rw [if_pos h4] at hp
      exact ⟨fun _ => by rw [← hp], fun hlt => absurd h4 (by omega)⟩
    · rw [if_neg h4] at hp
      exact ⟨fun hle => absurd hle h4, fun _ => by rw [← hp]; exact ⟨rfl, rfl⟩⟩
  obtain ⟨hund, hrep⟩ := hmain _ rfl
  refine ⟨⟨fun hr => ?_, fun h => (hrep h).1⟩, hund, fun h => ?_⟩
  · by_contra hnot
    rw [hund (by omega)] at hr
    exact absurd hr (by simp)
  · obtain ⟨_, hbh⟩ := hrep h
    constructor
    · unfold Mempool.get_transaction
      rw [hbh, assocFind_put_other _ _ _ _ hhash, assocFind_erase_self _ _ hnodup]
    · unfold Mempool.get_transaction
      rw [hbh, assocFind_put_self]

/-- The occupied pool: one transaction at (addr1, 0) with max fee 10^9. -/
def rbf_old : Transaction :=
  { from_ := addr1, to_ := addr2, nonce := 0, gas_limit := 21000,
    max_fee_per_gas := 1000000000 }

/-- A replacement at exactly 1.10 times the old max fee. -/
def rbf_exact : Transaction :=
  { from_ := addr1, to_ := addr2, nonce := 0, gas_limit := 21000,
    max_fee_per_gas := 1100000000 }

/-- A replacement one unit above 1.10 times the old max fee. -/
def rbf_above : Transaction :=
  { from_ := addr1, to_ := addr2, nonce := 0, gas_limit := 21000,
    max_fee_per_gas := 1100000001 }

/-- The pool holding exactly rbf_old. -/
def rbf_pool : Mempool :=
  (Mempool.add_transaction testHash {} rbf_old 1000000000000000000).2

/-- C5 counterexample: a replacement offering exactly 1.10 times the old
max fee (1.10 * 10^9 over 10^9) is rejected as Underpriced, although the
claim accepts the exact 1.10x multiple. -/
theorem c5_counterexample :
    100 * rbf_exact.max_fee_per_gas = 110 * rbf_old.max_fee_per_gas ∧
    (Mempool.add_transaction testHash rbf_pool rbf_exact 1000000000000000000).1 =
      AddResult.Underpriced := by
  constructor
  · decide
  · decide

/-- The witness replaces at one unit above the 1.10x threshold and checks
the old hash is gone from the pool. -/
theorem c5_amended_witness :
    (Mempool.add_transaction testHash rbf_pool rbf_above 1000000000000000000).1 =
      AddResult.Replaced ∧
    Mempool.get_transaction
      (Mempool.add_transaction testHash rbf_pool rbf_above 1000000000000000000).2
      (rbf_old.hash testHash) = none := by
  have h := c5_amended testHash rbf_pool rbf_above 1000000000000000000 rbf_old
    (by decide) (by decide) (by decide) (by decide) (by decide) (by decide)
  exact ⟨h.1.mpr (by decide), (h.2.2 (by decide)).1⟩

/-! ## Claim C4: the commit root -/

/-- Two trie states hold the same logical mapping when every read agrees. -/
def sameMapping (H : Bytes → Bytes) (t1 t2 : StateTrie) : Prop :=
  ∀ k, t1.get H k = t2.get H k

/-- The post-commit trie of the one-shot history: both keys written, then
one commit. -/
def c4_oneCommit : Bytes × StateTrie :=
  ((({} : StateTrie).put consHash [1, 2, 3] [9]).put consHash [4, 5] [8]).commit consHash

/-- The post-commit trie of the two-step history: first key written and
committed, then the second key written and committed. -/
def c4_twoCommits : Bytes × StateTrie :=
  ((((({} : StateTrie).put consHash [1, 2, 3] [9]).commit consHash).2).put
    consHash [4, 5] [8]).commit consHash

/-- C4 counterexample: the two histories leave the store with the same
account mapping, yet the final commits return different roots, because
commit hashes only the entries modified since the previous commit. -/
theorem c4_counterexample :
    sameMapping consHash c4_oneCommit.2 c4_twoCommits.2 ∧
    c4_oneCommit.1 ≠ c4_twoCommits.1 := by
  constructor
  · intro k
    have hX : c4_oneCommit.2.dirty = [] := by decide
    have hY : c4_twoCommits.2.dirty = [] := by decide
    have hdbX : c4_oneCommit.2.db =
        [([1, 1, 1, 2, 3], [9]), ([1, 1, 4, 5], [8]), (rootKey, c4_oneCommit.1)] := by decide
    have hdbY : c4_twoCommits.2.db =
        [([1, 1, 1, 2, 3], [9]), (rootKey, c4_twoCommits.1), ([1, 1, 4, 5], [8])] := by decide
    unfold StateTrie.get
    rw [hX, hY, hdbX, hdbY]
    simp only [assocFind, trieDbKey, consHash, rootKey]
    by_cases h1 : k = [1, 2, 3]
    · simp [h1]
    · by_cases h2 : k = [4, 5]
      · simp [h2]
      · simp [h1, h2]
  · decide

/-- C4 amended: the root returned by commit is a function of the dirty
delta alone: any two trie states with the same pending writes, at least one
of which is a real (non-delete) write, commit to the same root, regardless
of what else the store holds and of the previous root. -/
theorem c4_amended (H : Bytes → Bytes) (t1 t2 : StateTrie)
    (hdirty : t1.dirty = t2.dirty)
    (hwrite : ∃ kv ∈ t1.dirty, kv.2 ≠ []) :
    (t1.commit H).1 = (t2.commit H).1 := by
  obtain ⟨kv, hmem, hval⟩ := hwrite
  have hne : ((t1.dirty.filter (fun kv => !kv.2.isEmpty)).map
      (fun kv => H (kv.1 ++ kv.2))).isEmpty = false := by
    have hm : kv ∈ t1.dirty.filter (fun kv => !kv.2.isEmpty) :=
      List.mem_filter.mpr ⟨hmem, by simp [hval]⟩
    rcases hf : t1.dirty.filter (fun kv => !kv.2.isEmpty) with _ | ⟨a, l⟩
    · rw [hf] at hm
      exact absurd hm (List.not_mem_nil _)
    · simp [hf]
  unfold StateTrie.commit
  simp only [← hdirty, hne, Bool.false_eq_true, if_false]

/-- The witness commits the same one-entry delta over two different stores
and compares the returned roots. -/
theorem c4_amended_witness :
    ((⟨[([5], [6])], [], [7]⟩ : StateTrie).commit consHash).1 =
      ((⟨[([5], [6])], [([9], [9])], [8]⟩ : StateTrie).commit consHash).1 := by
  exact c4_amended consHash _ _ (by decide) ⟨([5], [6]), by decide, by decide⟩

/-! ## Claim C1: the validation order and the missing signature check -/

/-- The five validation errors the specification names.  Modelled from the
specification text, not from the source. -/
inductive SpecValidationError
  | BadNonce
  | FeeTooLow
  | IntrinsicTooLow
  | InsufficientFunds
  | BadSignature
deriving DecidableEq

/-- The validation sequence exactly as the specification words it: nonce,
fee floor, intrinsic floor, funds, signature, each step failing with its
named error.  Modelled from the specification text, not from the source; to
be compared with TransactionProcessor.validate. -/
def validate_spec (H : Bytes → Bytes) (edVerify : Bytes → Bytes → Bytes → Bool)
    (sm : StateManager) (tx : Transaction) (base_fee : Nat) :
    Option SpecValidationError :=
  if tx.nonce ≠ sm.get_nonce H tx.from_ then some SpecValidationError.BadNonce
  else if tx.max_fee_per_gas < base_fee then some SpecValidationError.FeeTooLow
  else if tx.gas_limit < TransactionProcessor.intrinsic_gas tx then
    some SpecValidationError.IntrinsicTooLow
  else if sm.get_balance H tx.from_ <
      add64 tx.value (mul64 tx.gas_limit tx.max_fee_per_gas) then
    some SpecValidationError.InsufficientFunds
  else if !(tx.verify_signature H edVerify) then some SpecValidationError.BadSignature
  else none

/-- A state holding one funded sender account at addr1. -/
def c1_sm : StateManager :=
  StateManager.set_account testHash addr1 { balance := 1000000000000000000 } {}

/-- The strictest signature primitive: every cryptographic check fails. -/
def noVerify : Bytes → Bytes → Bytes → Bool := fun _ _ _ => false

/-- A plain transfer whose signature no verifier accepts (it is not the
all-0xFF bypass pattern, and noVerify rejects everything). -/
def c1_badsig_tx : Transaction :=
  { from_ := addr1, to_ := addr2, value := 7, nonce := 0, gas_limit := 21000,
    max_fee_per_gas := 1000000000, signature := List.replicate 64 1 }

/-- A transaction failing both the fee floor and the funds check: its value
exceeds the sender balance and its max fee is far below the base fee. -/
def c1_lowfee_tx : Transaction :=
  { from_ := addr1, to_ := addr2, value := 2000000000000000000, nonce := 0,
    gas_limit := 21000, max_fee_per_gas := 2 }

/-- The execution context of the C1 runs: base fee 10^9. -/
def c1_ctx : ExecutionContext := { base_fee := 1000000000 }

/-- C1 counterexample: (a) a transaction whose signature fails every
cryptographic check, which the spec order rejects with BadSignature, is
executed by process (it succeeds, burns 21000 gas and bumps the sender
nonce); (b) a transaction failing both the fee floor and the funds check is
rejected for insufficient balance, where the spec order names FeeTooLow
first — so the code checks funds before the fee floor and never checks the
signature. -/
theorem c1_counterexample :
    (validate_spec testHash noVerify c1_sm c1_badsig_tx c1_ctx.base_fee =
        some SpecValidationError.BadSignature ∧
      (TransactionProcessor.process testHash 0 1 c1_badsig_tx c1_ctx c1_sm).map
          (fun pr => (pr.1.success, pr.1.gas_used, pr.2.get_nonce testHash addr1)) =
        some (true, 21000, 1)) ∧
    (validate_spec testHash noVerify c1_sm c1_lowfee_tx c1_ctx.base_fee =
        some SpecValidationError.FeeTooLow ∧
      (TransactionProcessor.validate testHash c1_sm c1_lowfee_tx c1_ctx.base_fee).error =
        insufficientBalanceMsg) := by
  refine ⟨⟨by decide, by decide⟩, by decide, rfl⟩

/-- C1 amended: process never consults the signature — replacing it changes
nothing about the run — and validation passes exactly when the nonce
matches, the balance covers value plus the full fee allowance, the gas
limit reaches the intrinsic cost and the max fee reaches the base fee; the
checks are made in that order, funds before fee floor, with no signature
step. -/
theorem c1_amended (H : Bytes → Bytes) (now fuel : Nat) (tx : Transaction)
    (ctx : ExecutionContext) (sm : StateManager) (sig : Bytes) :
    TransactionProcessor.process H now fuel { tx with signature := sig } ctx sm =
      TransactionProcessor.process H now fuel tx ctx sm ∧
    ((TransactionProcessor.validate H sm tx ctx.base_fee).valid = true ↔
      tx.nonce = sm.get_nonce H tx.from_ ∧
      add64 tx.value (mul64 tx.gas_limit tx.max_fee_per_gas) ≤ sm.get_balance H tx.from_ ∧
      TransactionProcessor.intrinsic_gas tx ≤ tx.gas_limit ∧
      ctx.base_fee ≤ tx.max_fee_per_gas) := by
  constructor
  · rfl
  · unfold TransactionProcessor.validate
    split_ifs with h1 h2 h3 h4 <;> simp_all

/-! ## Claim C2: failed frames, gas and rollback -/

theorem add_balance_get_storage (H : Bytes → Bytes) (a : Address) (amt : Nat)
    (s : StateManager) (b : Address) (slot : Bytes) :
    (s.add_balance H a amt).get_storage b slot = s.get_storage b slot := rfl

theorem add_balance_get_nonce_self (H : Bytes → Bytes) (a : Address) (amt : Nat)
    (s : StateManager) :
    (s.add_balance H a amt).get_nonce H a = s.get_nonce H a % M64 := by
  unfold StateManager.add_balance StateManager.get_nonce
  simp only
  rw [set_account_get_account, if_pos rfl]
  have h1 : (s.get_account H a).storage_root.length = 32 := by
    rw [get_account_eq]; exact (decode_digest_lengths _).1
  have h2 : (s.get_account H a).code_hash.length = 32 := by
    rw [get_account_eq]; exact (decode_digest_lengths _).2
  rw [decode_encode_mod { s.get_account H a with
    balance := ((s.get_account H a).balance + amt) % M64 } h1 h2]

theorem add_balance_get_nonce_other (H : Bytes → Bytes) (a : Address) (amt : Nat)
    (s : StateManager) (b : Address)
    (h : H b.payment_credential ≠ H a.payment_credential) :
    (s.add_balance H a amt).get_nonce H b = s.get_nonce H b := by
  unfold StateManager.add_balance StateManager.get_nonce
  simp only
  rw [set_account_get_account, if_neg h]

/-- The reverting contract of the C2 runs: PUSH1 42, PUSH1 7, SSTORE,
PUSH1 0, PUSH1 0, REVERT. -/
def progC2 : Bytes := [0x60, 0x2A, 0x60, 0x07, 0x55, 0x60, 0x00, 0x60, 0x00, 0xFD]

/-- A state holding the funded sender addr1 and the reverting contract
deployed at addr3. -/
def c2_sm : StateManager :=
  StateManager.set_code testHash addr3 progC2
    (StateManager.set_account testHash addr1 { balance := 1000000000000000000 } {})

/-- The transaction calling the reverting contract with gas limit 100000. -/
def c2_tx : Transaction :=
  { from_ := addr1, to_ := addr3, value := 5, nonce := 0, gas_limit := 100000,
    max_fee_per_gas := 2000000000, max_priority_fee_per_gas := 1000000000 }

/-- The execution context of the C2 runs: base fee 10^9, coinbase addr2. -/
def c2_ctx : ExecutionContext := { base_fee := 1000000000, coinbase := addr2 }

/-- The storage slot key the contract writes (the 32-byte word 7). -/
def c2_slot : Bytes := List.replicate 31 0 ++ [7]

/-- The stored value (the 32-byte word 42). -/
def c2_val42 : Bytes := List.replicate 31 0 ++ [42]

/-- C2 counterexample: the reverting call fails, yet the receipt reports
only the 20012 gas the frame actually used of its 100000 limit (the unused
gas is refunded rather than burned), and the SSTORE of the failed frame
persists: slot 7 of the contract, empty before the run, holds 42 after it.
The nonce increment does persist. -/
theorem c2_counterexample :
    (TransactionProcessor.process testHash 0 100 c2_tx c2_ctx c2_sm).map
        (fun pr => (pr.1.success, pr.1.gas_used, pr.2.get_storage addr3 c2_slot,
          pr.2.get_nonce testHash addr1)) =
      some (false, 20012, c2_val42, 1) ∧
    c2_tx.gas_limit = 100000 ∧
    c2_sm.get_storage addr3 c2_slot = [] := by
  refine ⟨by decide, by decide, by decide⟩

/-- C2 amended: when the called frame fails, execute_transaction still
refunds the unused gas to the sender and pays only the used gas to the
coinbase (the final state is the frame's post-state plus exactly those two
balance credits), every storage slot keeps the value the failed frame left
it (nothing is rolled back), and the sender's nonce increment persists. -/
theorem c2_amended (H : Bytes → Bytes) (now fuel : Nat) (tx : Transaction)
    (ctx : ExecutionContext) (sm sm3 sm4 smf : StateManager) (price : Nat)
    (r : ExecutionResult)
    (hprice : price = tx.effective_gas_price ctx.base_fee)
    (hsm3 : sm3 = ((sm.increment_nonce H tx.from_).sub_balance H tx.from_
      (add64 tx.value (mul64 tx.gas_limit price))).add_balance H tx.to_ tx.value)
    (hsmf : smf = (sm4.add_balance H tx.from_
      (mul64 (sub64 tx.gas_limit r.gas_used) price)).add_balance H ctx.coinbase
      (mul64 r.gas_used price))
    (hto : ¬ tx.to_.payment_credential = List.replicate 28 0)
    (hbal : ¬ ((sm.increment_nonce H tx.from_).get_balance H tx.from_ <
      add64 tx.value (mul64 tx.gas_limit price)))
    (hcode : ¬ sm3.get_code H tx.to_ = [])
    (hinner : execCode H now fuel tx.from_ tx.to_ (sm3.get_code H tx.to_) tx.data
      tx.value tx.gas_limit false sm3 = some (r, sm4))
    (hfail : r.success = false)
    (hsep : H ctx.coinbase.payment_credential ≠ H tx.from_.payment_credential)
    (hn : sm4.get_nonce H tx.from_ < M64) :
    EVM.execute_transaction H now fuel tx ctx sm = some (r, smf) ∧
    (∀ b slot, smf.get_storage b slot = sm4.get_storage b slot) ∧
    smf.get_nonce H tx.from_ = sm4.get_nonce H tx.from_ := by
  subst hprice hsm3 hsmf
  refine ⟨?_, ?_, ?_⟩
  · have hc : ((((sm.increment_nonce H tx.from_).sub_balance H tx.from_
        (add64 tx.value (mul64 tx.gas_limit (tx.effective_gas_price ctx.base_fee)))).add_balance
        H tx.to_ tx.value).get_code H tx.to_).isEmpty = false := by
      rcases hg : (((sm.increment_nonce H tx.from_).sub_balance H tx.from_
          (add64 tx.value (mul64 tx.gas_limit (tx.effective_gas_price ctx.base_fee)))).add_balance
          H tx.to_ tx.value).get_code H tx.to_ with _ | _
      · exact absurd hg hcode
      · rfl
    simp only [EVM.execute_transaction, if_neg hbal, if_neg hto, hc, Bool.not_false,
      if_true, hinner]
  · intro b slot
    rw [add_balance_get_storage, add_balance_get_storage]
  · rw [add_balance_get_nonce_other _ _ _ _ _ (Ne.symm hsep), add_balance_get_nonce_self,
      Nat.mod_eq_of_lt hn]

/-- The effective gas price of the C2 transaction in its context. -/
def c2_price : Nat := c2_tx.effective_gas_price c2_ctx.base_fee

/-- The state handed to the failing frame: nonce bumped, value and full gas
allowance debited, call value credited. -/
def c2_sm3 : StateManager :=
  ((c2_sm.increment_nonce testHash c2_tx.from_).sub_balance testHash c2_tx.from_
    (add64 c2_tx.value (mul64 c2_tx.gas_limit c2_price))).add_balance testHash
    c2_tx.to_ c2_tx.value

/-- The frame run of the C2 transaction. -/
def c2_run : Option (ExecutionResult × StateManager) :=
  execCode testHash 0 100 c2_tx.from_ c2_tx.to_ (c2_sm3.get_code testHash c2_tx.to_)
    c2_tx.data c2_tx.value c2_tx.gas_limit false c2_sm3

/-- The frame result of the C2 run. -/
def c2_r : ExecutionResult := match c2_run with | some p => p.1 | none => {}

/-- The frame post-state of the C2 run. -/
def c2_sm4 : StateManager := match c2_run with | some p => p.2 | none => {}

/-- The final state of the C2 run: the frame post-state plus the gas refund
and the coinbase payment. -/
def c2_smf : StateManager :=
  (c2_sm4.add_balance testHash c2_tx.from_
    (mul64 (sub64 c2_tx.gas_limit c2_r.gas_used) c2_price)).add_balance testHash
    c2_ctx.coinbase (mul64 c2_r.gas_used c2_price)

/-- The witness runs the reverting C2 call through the amended theorem. -/
theorem c2_amended_witness :
    EVM.execute_transaction testHash 0 100 c2_tx c2_ctx c2_sm = some (c2_r, c2_smf) ∧
    c2_smf.get_storage addr3 c2_slot = c2_sm4.get_storage addr3 c2_slot ∧
    c2_smf.get_nonce testHash c2_tx.from_ = c2_sm4.get_nonce testHash c2_tx.from_ := by
  have h := c2_amended testHash 0 100 c2_tx c2_ctx c2_sm c2_sm3 c2_sm4 c2_smf c2_price c2_r
    rfl rfl rfl (by decide) (by decide) (by decide) rfl (by decide) (by decide) (by decide)
  exact ⟨h.1, h.2.1 addr3 c2_slot, h.2.2⟩

/-! ## Claim C6: block selection -/

/-- The summed gas limits of a transaction list. -/
def sumGas (l : List Transaction) : Nat := (l.map (fun tx => tx.gas_limit)).sum

theorem sumGas_reverse (l : List Transaction) : sumGas l.reverse = sumGas l := by
  unfold sumGas
  rw [List.map_reverse, List.sum_reverse]

/-- Every run of the selection loop keeps the summed gas of its output under
the block limit and admits only transactions priced at or above the base
fee, provided no pooled gas limit can overflow the uint64 accumulator. -/
theorem selectLoop_bound (by_hash : List (Bytes × Transaction)) (gl base_fee : Nat)
    (hgas : ∀ kv ∈ by_hash, gl + kv.2.gas_limit < M64) :
    ∀ fuel pq gas_used selected acc,
      sumGas acc ≤ gas_used → gas_used ≤ gl →
      (∀ tx ∈ acc, base_fee ≤ tx.effective_gas_price base_fee) →
      sumGas (selectLoop by_hash gl base_fee fuel pq gas_used selected acc) ≤ gl ∧
      ∀ tx ∈ selectLoop by_hash gl base_fee fuel pq gas_used selected acc,
        base_fee ≤ tx.effective_gas_price base_fee := by
  intro fuel
  induction fuel with
  | zero =>
      intro pq gas_used selected acc h1 h2 h3
      rw [selectLoop]
      exact ⟨by rw [sumGas_reverse]; omega,
        fun tx htx => h3 tx (List.mem_reverse.mp htx)⟩
  | succ f ih =>
      intro pq gas_used selected acc h1 h2 h3
      rw [selectLoop]
      by_cases hstop : gl ≤ gas_used
      · rw [if_pos hstop]
        exact ⟨by rw [sumGas_reverse]; omega,
          fun tx htx => h3 tx (List.mem_reverse.mp htx)⟩
      · rw [if_neg hstop]
        rcases hpop : popMax pq with _ | ⟨top, pq1⟩
        · simp only
          exact ⟨by rw [sumGas_reverse]; omega,
            fun tx htx => h3 tx (List.mem_reverse.mp htx)⟩
        · simp only
          rcases hfind : assocFind by_hash top.1 with _ | tx

          · exact ih pq1 gas_used selected acc h1 h2 h3
          · simp only
            by_cases hsel : top.1 ∈ selected
            · rw [if_pos hsel]
              exact ih pq1 gas_used selected acc h1 h2 h3
            · rw [if_neg hsel]
              by_cases hover : gl < (gas_used + tx.gas_limit) % M64
              · rw [if_pos hover]
                exact ih pq1 gas_used selected acc h1 h2 h3
              · rw [if_neg hover]
                by_cases hpr : tx.effective_gas_price base_fee < base_fee
                · rw [if_pos hpr]
                  exact ih pq1 gas_used selected acc h1 h2 h3
                · rw [if_neg hpr]
                  have hwrap : gl + tx.gas_limit < M64 :=
                    hgas (top.1, tx) (assocFind_mem _ _ _ hfind)
                  have hmod : (gas_used + tx.gas_limit) % M64 = gas_used + tx.gas_limit :=
                    Nat.mod_eq_of_lt (by omega)
                  refine ih pq1 _ _ _ ?_ ?_ ?_
                  · rw [hmod]
                    have : sumGas (tx :: acc) = tx.gas_limit + sumGas acc := by
                      simp [sumGas]
                    omega
                  · omega
                  · intro t ht
                    rcases List.mem_cons.mp ht with he | hm
                    · subst he; omega
                    · exact h3 t hm

/-- C6 counterexample: addr1 pools nonces 0 and 2 (never 1), and selection
returns both, the gapped nonce 2 first — the spec's walk-through says only
nonce 0 is selectable.  The selection loop never consults nonces at all. -/
theorem c6_counterexample :
    ((Mempool.add_transaction testHash
        (Mempool.add_transaction testHash {}
          { from_ := addr1, to_ := addr2, nonce := 0, gas_limit := 21000,
            max_fee_per_gas := 2000000000, max_priority_fee_per_gas := 500000000 }
          1000000000000000000).2
        { from_ := addr1, to_ := addr2, nonce := 2, gas_limit := 21000,
          max_fee_per_gas := 2000000000, max_priority_fee_per_gas := 1000000000 }
        1000000000000000000).2.get_block_transactions 100000 1000000000).map
      (fun tx => tx.nonce) = [2, 0] := by
  decide

/-- C6 amended: selection enforces the gas cap and the price floor — the
summed gas limit of the returned list never exceeds the block gas limit
(assuming no pooled gas limit can wrap the uint64 accumulator) and every
returned transaction's effective price is at least the base fee — but it
imposes no per-sender nonce contiguity: nonces are never read. -/
theorem c6_amended (pool : Mempool) (gl base_fee : Nat)
    (hgas : ∀ kv ∈ pool.by_hash, gl + kv.2.gas_limit < M64) :
    sumGas (pool.get_block_transactions gl base_fee) ≤ gl ∧
    ∀ tx ∈ pool.get_block_transactions gl base_fee,
      base_fee ≤ tx.effective_gas_price base_fee := by
  unfold Mempool.get_block_transactions
  exact selectLoop_bound pool.by_hash gl base_fee hgas _ _ 0 [] []
    (by simp [sumGas]) (Nat.zero_le _) (by simp)

/-- The witness bounds the selection of a one-transaction pool. -/
theorem c6_amended_witness :
    sumGas (((Mempool.add_transaction testHash {}
        { from_ := addr1, to_ := addr2, nonce := 0, gas_limit := 21000,
          max_fee_per_gas := 2000000000 }
        1000000000000000000).2).get_block_transactions 100000 1000000000) ≤ 100000 := by
  exact (c6_amended _ 100000 1000000000 (by decide)).1

/-! ## Claim C8: the leader schedule -/

theorem leaderWalk_some :
    ∀ (l : List Sequencer) (c r : Nat), c ≤ r →
      r < c + (l.map (fun s => s.stake)).sum →
      c + (l.map (fun s => s.stake)).sum < M64 →
      (leaderWalk r l c).isSome = true
  | [], c, r, hcr, hlt, _ => by simp at hlt; omega
  | seq :: rest, c, r, hcr, hlt, hm => by
      simp only [List.map_cons, List.sum_cons] at hlt hm
      have hmod : (c + seq.stake) % M64 = c + seq.stake := Nat.mod_eq_of_lt (by omega)
      rw [leaderWalk, hmod]
      by_cases hr : r < c + seq.stake
      · rw [if_pos hr]; rfl
      · rw [if_neg hr]
        exact leaderWalk_some rest (c + seq.stake) r (by omega) (by omega) (by omega)

/-- Counting lemma for the leader walk: over one full cycle of slot residues
the walk names each sequencer once per unit of stake. -/
theorem leaderWalk_count (b : Address) :
    ∀ (l : List Sequencer) (c : Nat),
      c + (l.map (fun s => s.stake)).sum < M64 →
      ((List.range' c ((l.map (fun s => s.stake)).sum)).filter
          (fun r => leaderWalk r l c = some b)).length =
        ((l.filter (fun s => s.address = b)).map (fun s => s.stake)).sum := by
  intro l
  induction l with
  | nil => intro c h; simp
  | cons seq rest ih =>
      intro c h
      simp only [List.map_cons, List.sum_cons] at h
      have hmod : (c + seq.stake) % M64 = c + seq.stake := Nat.mod_eq_of_lt (by omega)
      have hsplit : List.range' c (((seq :: rest).map (fun s => s.stake)).sum) =
          List.range' c seq.stake ++
            List.range' (c + seq.stake) ((rest.map (fun s => s.stake)).sum) := by
        have hr := List.range'_append c seq.stake ((rest.map (fun s => s.stake)).sum) 1
        simp only [one_mul] at hr
        rw [List.map_cons, List.sum_cons, Nat.add_comm seq.stake]
        exact hr.symm
      rw [hsplit, List.filter_append, List.length_append]
      have hseg1 : (List.range' c seq.stake).filter
            (fun r => leaderWalk r (seq :: rest) c = some b) =
          (List.range' c seq.stake).filter (fun _ => decide (seq.address = b)) := by
        apply List.filter_congr
        intro r hr
        rw [List.mem_range'_1] at hr
        rw [leaderWalk, hmod, if_pos (by omega : r < c + seq.stake)]
        simp
      have hseg2 : (List.range' (c + seq.stake) ((rest.map (fun s => s.stake)).sum)).filter
            (fun r => leaderWalk r (seq :: rest) c = some b) =
          (List.range' (c + seq.stake) ((rest.map (fun s => s.stake)).sum)).filter
            (fun r => leaderWalk r rest (c + seq.stake) = some b) := by
        apply List.filter_congr
        intro r hr
        rw [List.mem_range'_1] at hr
        rw [leaderWalk, hmod, if_neg (by omega : ¬ r < c + seq.stake)]
      rw [hseg1, hseg2, ih (c + seq.stake) (by omega)]
      by_cases hb : seq.address = b
      · simp [hb, List.length_range']
      · simp [hb]

/-- In a list with pairwise distinct addresses, filtering on a member's
address yields exactly that member. -/
theorem filter_addr_of_nodup :
    ∀ (l : List Sequencer) (seq : Sequencer), seq ∈ l →
      (l.map (fun s => s.address)).Nodup →
      l.filter (fun s => s.address = seq.address) = [seq] := by
  intro l
  induction l with
  | nil => intro seq h _; exact absurd h (List.not_mem_nil _)
  | cons x xs ih =>
      intro seq hmem hnodup
      rw [List.map_cons, List.nodup_cons] at hnodup
      rcases List.mem_cons.mp hmem with he | hm
      · subst he
        rw [List.filter_cons_of_pos (by simp)]
        rw [List.filter_eq_nil_iff.mpr]
        intro a ha
        simp only [decide_eq_true_eq]
        exact fun hc => hnodup.1 (hc ▸ List.mem_map_of_mem _ ha)
      · have hne : ¬ x.address = seq.address :=
          fun he => hnodup.1 (he ▸ List.mem_map_of_mem _ hm)
        rw [List.filter_cons_of_neg (by simp [hne])]
        exact ih seq hm hnodup.2

/-- Within one cycle the engine's leader is exactly what the walk names. -/
theorem get_leader_eq_walk (e : ConsensusEngine) (s : Nat) (b : Address)
    (hne : e.active_set ≠ [])
    (htot : 0 < (e.active_set.map (fun x => x.stake)).sum)
    (hm : (e.active_set.map (fun x => x.stake)).sum < M64)
    (hs : s < (e.active_set.map (fun x => x.stake)).sum) :
    e.get_leader_for_slot s = b ↔ leaderWalk s e.active_set 0 = some b := by
  have htas : e.total_active_stake = (e.active_set.map (fun x => x.stake)).sum := by
    unfold ConsensusEngine.total_active_stake
    simp only
    rw [Nat.mod_eq_of_lt hm, if_pos htot]
  have hsome := leaderWalk_some e.active_set 0 s (Nat.zero_le _) (by omega) (by omega)
  unfold ConsensusEngine.get_leader_for_slot
  rcases hact : e.active_set with _ | ⟨first, rest⟩
  · exact absurd hact hne
  · rw [hact] at hsome hs
    simp only [List.map_cons, List.sum_cons] at hs
    simp only [htas, hact, List.map_cons, List.sum_cons, Nat.mod_eq_of_lt hs]
    rcases hw : leaderWalk s (first :: rest) 0 with _ | a
    · rw [hw] at hsome; simp at hsome
    · simp [hw]

/-- C8 amended: ignoring tie order, the engine's schedule is exactly
stake-proportional — over one full cycle of slots (the total active stake),
each active sequencer with a distinct address leads in exactly stake-many
slots, provided the total stake is positive and below 2^64. -/
theorem c8_amended (e : ConsensusEngine) (seq : Sequencer)
    (hseq : seq ∈ e.active_set)
    (hnodup : (e.active_set.map (fun s => s.address)).Nodup)
    (htot : 0 < (e.active_set.map (fun s => s.stake)).sum)
    (hm : (e.active_set.map (fun s => s.stake)).sum < M64) :
    ((List.range ((e.active_set.map (fun s => s.stake)).sum)).filter
        (fun s => e.get_leader_for_slot s = seq.address)).length = seq.stake := by
  have hne : e.active_set ≠ [] := by
    intro h; rw [h] at hseq; exact absurd hseq (List.not_mem_nil _)
  rw [List.range_eq_range']
  have hcong : (List.range' 0 ((e.active_set.map (fun s => s.stake)).sum)).filter
        (fun s => e.get_leader_for_slot s = seq.address) =
      (List.range' 0 ((e.active_set.map (fun s => s.stake)).sum)).filter
        (fun s => leaderWalk s e.active_set 0 = some seq.address) := by
    apply List.filter_congr
    intro s hsm
    rw [List.mem_range'_1] at hsm
    exact decide_eq_decide.mpr (get_leader_eq_walk e s seq.address hne htot hm (by omega))
  rw [hcong, leaderWalk_count seq.address e.active_set 0 (by omega),
    filter_addr_of_nodup e.active_set seq hseq hnodup]
  simp

/-- Bytewise lexicographic comparison of byte strings.  Modelled from the
specification's tie-break wording, not from the source. -/
def bytesLt : Bytes → Bytes → Bool
  | [], [] => false
  | [], _ :: _ => true
  | _ :: _, [] => false
  | a :: as, b :: bs => if a < b then true else if b < a then false else bytesLt as bs

/-- The reference ordering of the specification: descending stake, ties by
bytewise address.  Modelled from the specification, not from the source. -/
def specBefore (x y : Sequencer) : Bool :=
  if y.stake < x.stake then true
  else if x.stake < y.stake then false
  else bytesLt x.address.payment_credential y.address.payment_credential

/-- Insertion into a list sorted by the reference ordering.  Modelled from
the specification, not from the source. -/
def specInsert (x : Sequencer) : List Sequencer → List Sequencer
  | [] => [x]
  | y :: ys => if specBefore x y then x :: y :: ys else y :: specInsert x ys

/-- The reference sort of the specification. -/
def specSort (l : List Sequencer) : List Sequencer := l.foldr specInsert []

/-- The reference accumulation walk.  Modelled from the specification. -/
def specWalk (r : Nat) : List Sequencer → Nat → Option Address
  | [], _ => none
  | seq :: rest, c => if r < c + seq.stake then some seq.address else specWalk r rest (c + seq.stake)

/-- The reference leader of the specification: walk the active set in
descending-stake order with ties broken by bytewise address order.
Modelled from the specification, to be compared with
ConsensusEngine.get_leader_for_slot. -/
def get_leader_for_slot_spec (e : ConsensusEngine) (slot : Nat) : Address :=
  match specSort e.active_set with
  | [] => {}
  | first :: rest =>
      match specWalk (slot % (((first :: rest).map (fun s => s.stake)).sum))
          (first :: rest) 0 with
      | some a => a
      | none => first.address

/-- The registry of the C8 counterexample: two sequencers of equal stake,
the bytewise-larger address registered first. -/
def c8_engine : ConsensusEngine :=
  { config := { min_stake := 1 },
    sequencers := [{ address := addr2, stake := 100, status := SequencerStatus.Active },
      { address := addr1, stake := 100, status := SequencerStatus.Active }],
    active_set := ConsensusEngine.update_active_set { min_stake := 1 }
      [{ address := addr2, stake := 100, status := SequencerStatus.Active },
        { address := addr1, stake := 100, status := SequencerStatus.Active }] }

/-- C8 counterexample: with two equally staked sequencers the engine keeps
registry order (std::sort never consults addresses), so slot 0 goes to the
bytewise-larger addr2, while the specification's tie-break names addr1. -/
theorem c8_counterexample :
    c8_engine.get_leader_for_slot 0 = addr2 ∧
    get_leader_for_slot_spec c8_engine 0 = addr1 ∧
    addr2 ≠ addr1 := by
  refine ⟨by decide, by decide, by decide⟩

/-- The witness engine: addr1 with stake 3 and addr2 with stake 1. -/
def c8_wengine : ConsensusEngine :=
  { active_set := [{ address := addr1, stake := 3, status := SequencerStatus.Active },
      { address := addr2, stake := 1, status := SequencerStatus.Active }] }

/-- The witness counts addr1's slots over the four-slot cycle. -/
theorem c8_amended_witness :
    ((List.range 4).filter (fun s => c8_wengine.get_leader_for_slot s =
        ({ address := addr1, stake := 3,
           status := SequencerStatus.Active } : Sequencer).address)).length =
      ({ address := addr1, stake := 3, status := SequencerStatus.Active } : Sequencer).stake := by
  exact c8_amended c8_wengine
    { address := addr1, stake := 3, status := SequencerStatus.Active }
    (by decide) (by decide) (by decide) (by decide)

/-! ## Claim C3: snapshot and revert -/

/-- The mutations the claim lists between snapshot and revert. -/
inductive StateOp
  | setAccount (a : Address) (st : AccountState)
  | addBalance (a : Address) (amt : Nat)
  | subBalance (a : Address) (amt : Nat)
  | incNonce (a : Address)
  | setStorage (a : Address) (slot value : Bytes)
  | setCode (a : Address) (code : Bytes)
deriving DecidableEq

/-- Run one mutation against the state manager. -/
def applyOp (H : Bytes → Bytes) : StateOp → StateManager → StateManager
  | StateOp.setAccount a st, s => s.set_account H a st
  | StateOp.addBalance a amt, s => s.add_balance H a amt
  | StateOp.subBalance a amt, s => s.sub_balance H a amt
  | StateOp.incNonce a, s => s.increment_nonce H a
  | StateOp.setStorage a slot v, s => StateManager.set_storage a slot v s
  | StateOp.setCode a c, s => s.set_code H a c

/-- Run a mutation sequence in order. -/
def applyOps (H : Bytes → Bytes) : List StateOp → StateManager → StateManager
  | [], s => s
  | op :: ops, s => applyOps H ops (applyOp H op s)

/-- The raw trie read at an already-hashed key. -/
def rawGet (t : StateTrie) (k : Bytes) : Option Bytes :=
  match assocFind t.dirty k with
  | some v => some v
  | none => assocFind t.db (trieDbKey k)

/-- The account state a hashed trie slot decodes to. -/
def accSlot (t : StateTrie) (k : Bytes) : AccountState :=
  AccountState.decode ((rawGet t k).getD [])

/-- The integer fields reduced modulo 2^64, the normalization one
encode/decode round trip applies. -/
def canonAcc (st : AccountState) : AccountState :=
  { st with nonce := st.nonce % M64, balance := st.balance % M64 }

/-- Two tries agree on every decoded account slot, up to the encode/decode
normalization on slots the journal rewrote. -/
def slotMatch (t t0 : StateTrie) : Prop :=
  ∀ k, accSlot t k = accSlot t0 k ∨ accSlot t k = canonAcc (accSlot t0 k)

theorem get_account_accSlot (H : Bytes → Bytes) (s : StateManager) (a : Address) :
    s.get_account H a = accSlot s.trie (H a.payment_credential) := by
  rw [get_account_eq]; rfl

theorem decode_encode_canon (st : AccountState)
    (h3 : st.storage_root.length = 32) (h4 : st.code_hash.length = 32) :
    AccountState.decode st.encode = canonAcc st := decode_encode_mod st h3 h4

theorem canonAcc_decode (v : Bytes) :
    AccountState.decode (AccountState.decode v).encode = canonAcc (AccountState.decode v) :=
  decode_encode_canon _ (decode_digest_lengths v).1 (decode_digest_lengths v).2

theorem canonAcc_eq_of_lt (st : AccountState) (h1 : st.nonce < M64)
    (h2 : st.balance < M64) : canonAcc st = st := by
  unfold canonAcc
  rw [Nat.mod_eq_of_lt h1, Nat.mod_eq_of_lt h2]

theorem accSlot_congr (t t0 : StateTrie) (k : Bytes)
    (h : rawGet t k = rawGet t0 k) : accSlot t k = accSlot t0 k := by
  unfold accSlot
  rw [h]

theorem rawGet_dirty_put_other (t : StateTrie) (key v : Bytes) (k : Bytes)
    (h : k ≠ key) :
    rawGet { t with dirty := assocPut t.dirty key v } k = rawGet t k := by
  unfold rawGet
  simp only
  rw [assocFind_put_other _ _ _ _ h]

theorem rawGet_db_put_stor (t : StateTrie) (a : Address) (slot v : Bytes) (k : Bytes) :
    rawGet { t with db := assocPut t.db (storKey a slot) v } k = rawGet t k := by
  unfold rawGet
  simp only
  rw [assocFind_put_other _ _ _ _ (trieDbKey_ne_storKey k a slot)]

theorem rawGet_db_put_code (t : StateTrie) (h v : Bytes) (k : Bytes) :
    rawGet { t with db := assocPut t.db (codeKey h) v } k = rawGet t k := by
  unfold rawGet
  simp only
  rw [assocFind_put_other _ _ _ _ (trieDbKey_ne_codeKey k h)]

theorem accSlot_undoEntry_other (H : Bytes → Bytes) (e : JournalEntry)
    (t : StateTrie) (k : Bytes) (h : k ≠ H e.addr.payment_credential) :
    accSlot (undoEntry H e t) k = accSlot t k := by
  unfold undoEntry
  cases e.prev_state with
  | some p =>
      exact accSlot_congr _ _ _ (rawGet_dirty_put_other _ _ _ _ h)
  | none =>
      exact accSlot_congr _ _ _ (rawGet_dirty_put_other _ _ _ _ h)

theorem rawGet_put_self (t : StateTrie) (key v : Bytes) :
    rawGet { t with dirty := assocPut t.dirty key v } key = some v := by
  unfold rawGet
  simp only
  rw [assocFind_put_self]

theorem revertAux_self (H : Bytes → Bytes) (j : List JournalEntry) (t : StateTrie) :
    revertAux H j.length j t = (t, j) := by
  cases j with
  | nil => rfl
  | cons e rest =>
      rw [revertAux, if_pos]
      simp

theorem revertAux_trans (H : Bytes → Bytes) :
    ∀ (j : List JournalEntry) (t : StateTrie) (n m : Nat), n ≤ m →
      revertAux H n j t =
        revertAux H n (revertAux H m j t).2 (revertAux H m j t).1 := by
  intro j
  induction j with
  | nil => intro t n m _; rfl
  | cons e rest ih =>
      intro t n m hnm
      by_cases hm : rest.length + 1 ≤ m
      · have hrm : revertAux H m (e :: rest) t = (t, e :: rest) := by
          rw [revertAux, if_pos hm]
        rw [hrm]
      · have hn : ¬ rest.length + 1 ≤ n := by omega
        conv_lhs => rw [revertAux, if_neg hn]
        conv_rhs => rw [revertAux, if_neg hm]
        exact ih (undoEntry H e t) n m hnm

/-- Undoing the journal entry a journaled account write pushed restores
every decoded slot of the pre-write trie, up to normalization at the
rewritten slot.  t0 is the pre-write trie, t0' the pre-write trie with any
non-slot database additions of the same operation, and t1 any trie
slot-matching the post-write trie. -/
theorem undo_restores (H : Bytes → Bytes) (a : Address) (v : Bytes)
    (t0 t0' t1 : StateTrie)
    (hraw : ∀ k, rawGet t0' k = rawGet t0 k)
    (h1 : slotMatch t1 { t0' with dirty := assocPut t0'.dirty (H a.payment_credential) v }) :
    slotMatch
      (undoEntry H { addr := a, prev_state := (rawGet t0' (H a.payment_credential)).map AccountState.decode } t1)
      t0 := by
  intro k
  by_cases hk : k = H a.payment_credential
  · subst hk
    rcases hv : rawGet t0' (H a.payment_credential) with _ | v0
    · left
      unfold undoEntry
      simp only [hv, Option.map_none']
      unfold accSlot
      rw [show (StateTrie.del H t1 a.payment_credential) = { t1 with dirty := assocPut t1.dirty (H a.payment_credential) [] } from rfl,
        rawGet_put_self, ← hraw _, hv]
      rfl
    · right
      unfold undoEntry
      simp only [hv, Option.map_some']
      unfold accSlot
      rw [show (StateTrie.put H t1 a.payment_credential (AccountState.decode v0).encode) = { t1 with dirty := assocPut t1.dirty (H a.payment_credential) (AccountState.decode v0).encode } from rfl,
        rawGet_put_self, ← hraw _, hv]
      exact canonAcc_decode v0
  · rw [accSlot_undoEntry_other H _ t1 k hk]
    rcases h1 k with h | h
    · left
      rw [h, accSlot_congr _ _ _ (rawGet_dirty_put_other _ _ _ _ hk),
        accSlot_congr _ _ _ (hraw k)]
    · right
      rw [h, accSlot_congr _ _ _ (rawGet_dirty_put_other _ _ _ _ hk),
        accSlot_congr _ _ _ (hraw k)]

theorem slotMatch_of_congr (t1 tm t : StateTrie) (h : slotMatch t1 tm)
    (he : ∀ k, accSlot tm k = accSlot t k) : slotMatch t1 t := by
  intro k
  rcases h k with hc | hc
  · left; rw [hc, he k]
  · right; rw [hc, he k]

theorem applyOp_journal_le (H : Bytes → Bytes) (op : StateOp) (s : StateManager) :
    s.journal.length ≤ (applyOp H op s).journal.length := by
  cases op with
  | setAccount a st => exact Nat.le_succ _
  | addBalance a amt => exact Nat.le_succ _
  | subBalance a amt =>
      unfold applyOp StateManager.sub_balance
      simp only
      split
      · exact Nat.le_succ _
      · exact Nat.le_refl _
  | incNonce a => exact Nat.le_succ _
  | setStorage a slot v => exact Nat.le_refl _
  | setCode a c => exact Nat.le_succ _

/-- One mutation followed by the revert pop of its own journal entries
lands on the journal of the pre-mutation state and slot-matches its trie. -/
theorem op_step (H : Bytes → Bytes) (op : StateOp) (s : StateManager) (t1 : StateTrie)
    (h1 : slotMatch t1 (applyOp H op s).trie) :
    (revertAux H s.journal.length (applyOp H op s).journal t1).2 = s.journal ∧
    slotMatch (revertAux H s.journal.length (applyOp H op s).journal t1).1 s.trie := by
  cases op with
  | setAccount a st =>
      rw [show (applyOp H (StateOp.setAccount a st) s).journal = { addr := a, prev_state := (StateTrie.get H s.trie a.payment_credential).map AccountState.decode } :: s.journal from rfl]
      rw [revertAux, if_neg (by omega), revertAux_self]
      exact ⟨rfl, undo_restores H a st.encode s.trie s.trie t1 (fun _ => rfl) h1⟩
  | addBalance a amt =>
      rw [show (applyOp H (StateOp.addBalance a amt) s).journal = { addr := a, prev_state := (StateTrie.get H s.trie a.payment_credential).map AccountState.decode } :: s.journal from rfl]
      rw [revertAux, if_neg (by omega), revertAux_self]
      exact ⟨rfl, undo_restores H a _ s.trie s.trie t1 (fun _ => rfl) h1⟩
  | subBalance a amt =>
      by_cases hle : amt ≤ (s.get_account H a).balance
      · rw [show applyOp H (StateOp.subBalance a amt) s = s.set_account H a { s.get_account H a with balance := (s.get_account H a).balance - amt } from by unfold applyOp StateManager.sub_balance; simp only [if_pos hle]] at h1 ⊢
        rw [show (s.set_account H a { s.get_account H a with balance := (s.get_account H a).balance - amt }).journal = { addr := a, prev_state := (StateTrie.get H s.trie a.payment_credential).map AccountState.decode } :: s.journal from rfl]
        rw [revertAux, if_neg (by omega), revertAux_self]
        exact ⟨rfl, undo_restores H a _ s.trie s.trie t1 (fun _ => rfl) h1⟩
      · rw [show applyOp H (StateOp.subBalance a amt) s = s from by unfold applyOp StateManager.sub_balance; simp only [if_neg hle]] at h1 ⊢
        rw [revertAux_self]
        exact ⟨rfl, h1⟩
  | incNonce a =>
      rw [show (applyOp H (StateOp.incNonce a) s).journal = { addr := a, prev_state := (StateTrie.get H s.trie a.payment_credential).map AccountState.decode } :: s.journal from rfl]
      rw [revertAux, if_neg (by omega), revertAux_self]
      exact ⟨rfl, undo_restores H a _ s.trie s.trie t1 (fun _ => rfl) h1⟩
  | setStorage a slot v =>
      rw [show (applyOp H (StateOp.setStorage a slot v) s).journal = s.journal from rfl]
      rw [revertAux_self]
      refine ⟨rfl, slotMatch_of_congr t1 _ _ h1 ?_⟩
      intro k
      exact accSlot_congr _ _ _ (rawGet_db_put_stor s.trie a slot v k)
  | setCode a c =>
      rw [show (applyOp H (StateOp.setCode a c) s).journal = { addr := a, prev_state := (rawGet { s.trie with db := assocPut s.trie.db (codeKey (H c)) c } (H a.payment_credential)).map AccountState.decode } :: s.journal from rfl]
      rw [revertAux, if_neg (by omega), revertAux_self]
      refine ⟨rfl, undo_restores H a _ s.trie { s.trie with db := assocPut s.trie.db (codeKey (H c)) c } t1 (fun k => rawGet_db_put_code s.trie (H c) c k) h1⟩

/-- Reverting to the journal length a snapshot recorded pops exactly the
entries the mutation sequence pushed and restores every decoded account
slot of the snapshot state, up to normalization on rewritten slots. -/
theorem applyOps_revert (H : Bytes → Bytes) :
    ∀ (ops : List StateOp) (s : StateManager),
      (revertAux H s.journal.length (applyOps H ops s).journal
        (applyOps H ops s).trie).2 = s.journal ∧
      slotMatch (revertAux H s.journal.length (applyOps H ops s).journal
        (applyOps H ops s).trie).1 s.trie := by
  intro ops
  induction ops with
  | nil =>
      intro s
      rw [show applyOps H [] s = s from rfl, revertAux_self]
      exact ⟨rfl, fun k => Or.inl rfl⟩
  | cons op rest ih =>
      intro s
      obtain ⟨ih1, ih2⟩ := ih (applyOp H op s)
      rw [show applyOps H (op :: rest) s = applyOps H rest (applyOp H op s) from rfl]
      rw [revertAux_trans H (applyOps H rest (applyOp H op s)).journal
        (applyOps H rest (applyOp H op s)).trie s.journal.length
        (applyOp H op s).journal.length (applyOp_journal_le H op s)]
      rw [ih1]
      exact op_step H op s _ ih2

theorem revertAux_db (H : Bytes → Bytes) :
    ∀ (j : List JournalEntry) (n : Nat) (t : StateTrie),
      ((revertAux H n j t).1).db = t.db := by
  intro j
  induction j with
  | nil => intro n t; rfl
  | cons e rest ih =>
      intro n t
      rw [revertAux]
      split
      · rfl
      · rw [ih]
        unfold undoEntry
        cases e.prev_state <;> rfl

theorem codeKey_ne_storKey (h : Bytes) (a : Address) (slot : Bytes) :
    codeKey h ≠ storKey a slot := by
  simp [codeKey, storKey]

theorem codeKey_inj {x y : Bytes} (h : codeKey x = codeKey y) : x = y := by
  simpa [codeKey] using h

/-- The mutation sequence leaves the code blob under any digest it never
stores code at untouched. -/
theorem applyOps_db_codeKey (H : Bytes → Bytes) :
    ∀ (ops : List StateOp) (s : StateManager) (hgt : Bytes),
      (∀ b c, StateOp.setCode b c ∈ ops → H c ≠ hgt) →
      assocFind (applyOps H ops s).trie.db (codeKey hgt) =
        assocFind s.trie.db (codeKey hgt) := by
  intro ops
  induction ops with
  | nil => intro s hgt _; rfl
  | cons op rest ih =>
      intro s hgt hc
      rw [show applyOps H (op :: rest) s = applyOps H rest (applyOp H op s) from rfl]
      rw [ih (applyOp H op s) hgt (fun b c hm => hc b c (List.mem_cons_of_mem _ hm))]
      cases op with
      | setAccount a st => rfl
      | addBalance a amt => rfl
      | subBalance a amt =>
          unfold applyOp StateManager.sub_balance
          simp only
          split <;> rfl
      | incNonce a => rfl
      | setStorage a slot v =>
          unfold applyOp StateManager.set_storage
          simp only
          rw [assocFind_put_other _ _ _ _ (Ne.symm (codeKey_ne_storKey hgt a slot)).symm]
      | setCode b c =>
          unfold applyOp StateManager.set_code
          simp only
          rw [set_account_db]
          simp only
          rw [assocFind_put_other _ _ _ _
            (fun he => hc b c (List.mem_cons_self _ _) (codeKey_inj he).symm)]

theorem revert_trie (H : Bytes → Bytes) (snap : Snapshot) (s : StateManager) :
    (StateManager.revert H snap s).trie =
      (revertAux H snap.journal_size s.journal s.trie).1 := rfl

/-- C3 amended: after revert(snap), account-level reads (get_account,
get_balance, get_nonce) return what they returned immediately after the
snapshot, and get_code does too as long as no intervening set_code stored a
blob whose digest collides with a snapshot-time code hash; get_storage,
however, keeps the post-mutation value: set_storage writes are unjournaled
database writes that revert never touches. -/
theorem c3_amended (H : Bytes → Bytes) (ops : List StateOp) (s0 s1 s2 : StateManager)
    (hs1 : s1 = applyOps H ops s0)
    (hs2 : s2 = StateManager.revert H s0.snapshot s1)
    (hwf : ∀ k, (accSlot s0.trie k).nonce < M64 ∧ (accSlot s0.trie k).balance < M64)
    (hcode : ∀ b c, StateOp.setCode b c ∈ ops →
      ∀ a : Address, H c ≠ (s0.get_account H a).code_hash) :
    (∀ a, s2.get_account H a = s0.get_account H a) ∧
    (∀ a, s2.get_balance H a = s0.get_balance H a) ∧
    (∀ a, s2.get_nonce H a = s0.get_nonce H a) ∧
    (∀ a slot, s2.get_storage a slot = s1.get_storage a slot) ∧
    (∀ a, s2.get_code H a = s0.get_code H a) := by
  subst hs1 hs2
  obtain ⟨hj, hsm⟩ := applyOps_revert H ops s0
  have hacc : ∀ a, (StateManager.revert H s0.snapshot (applyOps H ops s0)).get_account H a =
      s0.get_account H a := by
    intro a
    rw [get_account_accSlot, get_account_accSlot, revert_trie,
      show s0.snapshot.journal_size = s0.journal.length from rfl]
    rcases hsm (H a.payment_credential) with h | h
    · exact h
    · rw [h, canonAcc_eq_of_lt _ (hwf _).1 (hwf _).2]
  have hdb : (StateManager.revert H s0.snapshot (applyOps H ops s0)).trie.db =
      (applyOps H ops s0).trie.db := by
    rw [revert_trie, revertAux_db]
  refine ⟨hacc, ?_, ?_, ?_, ?_⟩
  · intro a
    unfold StateManager.get_balance
    rw [hacc]
  · intro a
    unfold StateManager.get_nonce
    rw [hacc]
  · intro a slot
    unfold StateManager.get_storage
    rw [hdb]
  · intro a
    unfold StateManager.get_code
    simp only
    rw [hacc, hdb,
      applyOps_db_codeKey H ops s0 ((s0.get_account H a).code_hash)
        (fun b c hm => hcode b c hm a)]

/-- C3 counterexample: an unjournaled set_storage after the snapshot
survives the revert — the slot read returns the mutated value, not the
empty value it returned right after the snapshot. -/
theorem c3_counterexample :
    (StateManager.revert consHash (StateManager.snapshot {})
      (StateManager.set_storage addr1 [7] [9] {})).get_storage addr1 [7] = [9] ∧
    ({} : StateManager).get_storage addr1 [7] = [] := by
  refine ⟨by decide, by decide⟩

/-- The C3 witness mutations: account writes, an unjournaled storage write,
a nonce bump and a silent failed debit. -/
def c3_ops : List StateOp :=
  [StateOp.setAccount addr1 { balance := 5 }, StateOp.addBalance addr1 3,
   StateOp.setStorage addr1 [1] [2], StateOp.incNonce addr2,
   StateOp.subBalance addr1 100]

/-- The C3 witness snapshot state. -/
def c3_s0 : StateManager := {}

/-- The C3 witness post-mutation state. -/
def c3_s1 : StateManager := applyOps consHash c3_ops c3_s0

/-- The C3 witness post-revert state. -/
def c3_s2 : StateManager := StateManager.revert consHash c3_s0.snapshot c3_s1

theorem c3_s0_wf (k : Bytes) :
    (accSlot c3_s0.trie k).nonce < M64 ∧ (accSlot c3_s0.trie k).balance < M64 := by
  rw [show accSlot c3_s0.trie k = ({} : AccountState) from rfl]
  exact ⟨by decide, by decide⟩

/-- The witness reverts the mutation run and reads addr1 back. -/
theorem c3_amended_witness :
    c3_s2.get_account consHash addr1 = c3_s0.get_account consHash addr1 ∧
    c3_s2.get_storage addr1 [1] = c3_s1.get_storage addr1 [1] ∧
    c3_s2.get_code consHash addr1 = c3_s0.get_code consHash addr1 := by
  have h := c3_amended consHash c3_ops c3_s0 c3_s1 c3_s2 rfl rfl c3_s0_wf
    (by intro b c hm; simp [c3_ops] at hm)
  exact ⟨h.1 addr1, h.2.2.2.1 addr1 [1], h.2.2.2.2 addr1⟩

end Nonagon
